import Mathlib

/-!
# Ring filter (package `ring`, file `bloomfilter/ring.go`)

A shallow embedding of the Bloom filter of `ring.go` and the properties of
its operations, and of `MakeRelationshipFingerprint` of package `e2e`.

Conventions of the embedding.

* A byte and a `uint64` are natural numbers; a byte slice is a `List Nat`.
  Range facts (`size < 2 ^ 64`) appear as hypotheses where the code relies on
  them.
* A Go run-time panic (nil pointer dereference, index out of range, integer
  division by zero, slice bounds out of range) is `none`.
* An `error` result is an `Option Err`, `none` being `nil`.
* The `*sync.RWMutex` field is kept as a flag, `true` when the pointer is
  allocated: locking through a nil pointer panics.  Locking itself does not
  change the sequential state.  Statements about calls that lock carry the
  hypothesis `mutex = true`; by `Produced_lock_of_ne` it holds of every filter
  with a non-empty buffer or a non-zero size that the package produces, so it
  leaves out the untouched zero value only.
* `make([]uint8, n)` panics (`makeslice: len out of range`) when `n` exceeds
  the allocation limit of the run time, `maxAlloc`; below the limit the memory
  is taken to be there.  By `Produced_shape` every buffer of a filter the
  package produces has a length within the limit.
* `generateMultiHash` and `getRound` live in another file of the package and
  are parameters (`Hasher`); the `float64` operations used by `Init` are
  parameters as well (`Float64Ops`).
-/

namespace Ring

/-! ## Data model -/

/-- The error values the package returns.  `errElements`, `errFalsePositive`
and `errHash` are the three package-level variables; the others are built at
the place of the failure. -/
inductive Err where
  /-- The variable `errElements`: "error: elements must be greater than 0" -/
  | errElements
  /-- The variable `errFalsePositive`: "error: falsePositive must be greater than 0 and less than 1" -/
  | errFalsePositive
  /-- The variable `errHash`: "error: Hash functions must be greater than zero" -/
  | errHash
  /-- The error of `Merge`: "rings must have the same m/k parameters" -/
  | mergeParameters
  /-- The error "incorrect length: %d" with `len(data)` -/
  | incorrectLength (len : Nat)
  /-- The error "unexpected version: %d" with `data[0]` -/
  | unexpectedVersion (version : Nat)
  deriving DecidableEq, Repr

/-- The struct `Bloom`. -/
structure Bloom where
  /-- number of bits (bit array is size/8+1) -/
  size : Nat
  /-- main bit array -/
  bits : List Nat
  /-- number of hash rounds -/
  hash : Nat
  /-- whether the `*sync.RWMutex` pointer is non-nil -/
  mutex : Bool
  deriving DecidableEq, Repr

/-- The zero value `Bloom{}`: no bits, nil mutex. -/
def Bloom.zeroValue : Bloom := { size := 0, bits := [], hash := 0, mutex := false }

/-- The hash functions of the package, defined outside `ring.go`. -/
structure Hasher where
  /-- the type of the value `generateMultiHash` returns -/
  Digest : Type
  /-- The function `generateMultiHash(data)` -/
  generateMultiHash : List Nat → Digest
  /-- The function `getRound(hash, i)` -/
  getRound : Digest → Nat → Nat

/-- The `float64` operations `Init` uses. -/
structure Float64Ops where
  /-- the type `float64` -/
  F : Type
  /-- conversion of an integer (constant or `int`) to `float64` -/
  ofInt : Int → F
  /-- The product `x * y` -/
  mul : F → F → F
  /-- The quotient `x / y` -/
  div : F → F → F
  /-- The function `math.Log` -/
  Log : F → F
  /-- The function `math.Pow` -/
  Pow : F → F → F
  /-- The function `math.Ceil` -/
  Ceil : F → F
  /-- the conversion `uint64(x)` -/
  toUint64 : F → Nat
  /-- The comparison `x <= y` -/
  le : F → F → Bool
  /-- The comparison `x >= y` -/
  ge : F → F → Bool

/-! ## Slices -/

/-- The allocation limit `maxAlloc` of the run time: `1 << 48` bytes on the
64-bit platforms. -/
def maxAlloc : Nat := 2 ^ 48

/-- A slice of `n` zero bytes. -/
def zeros (n : Nat) : List Nat := List.replicate n 0

/-- The call `make([]uint8, n)`: `n` zero bytes, or the panic
`makeslice: len out of range` when `n` exceeds the allocation limit. -/
def make (n : Nat) : Option (List Nat) := if n ≤ maxAlloc then some (zeros n) else none

/-- The builtin `copy(dst, src)`: the first `min (len dst) (len src)` elements
of `dst` are overwritten.  The result is the new content of `dst`. -/
def copy (dst src : List Nat) : List Nat :=
  src.take dst.length ++ dst.drop src.length

/-- The call `copy(dst[off:], src)`, as the new content of `dst`; the slice
expression panics when `off > len(dst)`. -/
def copyAt (dst : List Nat) (off : Nat) (src : List Nat) : Option (List Nat) :=
  if off ≤ dst.length then some (dst.take off ++ copy (dst.drop off) src) else none

/-- The call `binary.BigEndian.PutUint64(b, v)` as the eight bytes written. -/
def PutUint64 (v : Nat) : List Nat :=
  [(v >>> 56) % 256, (v >>> 48) % 256, (v >>> 40) % 256, (v >>> 32) % 256,
   (v >>> 24) % 256, (v >>> 16) % 256, (v >>> 8) % 256, v % 256]

/-- The call `binary.BigEndian.PutUint64(dst[lo:lo+8], v)`, as the new content
of `dst`; the slice expression panics when `lo + 8 > len(dst)`. -/
def putUint64At (dst : List Nat) (lo : Nat) (v : Nat) : Option (List Nat) :=
  if lo + 8 ≤ dst.length then some (dst.take lo ++ PutUint64 v ++ dst.drop (lo + 8)) else none

/-- The call `binary.BigEndian.Uint64(b)`; it panics when `len(b) < 8`. -/
def Uint64 (b : List Nat) : Option Nat :=
  match b with
  | b0 :: b1 :: b2 :: b3 :: b4 :: b5 :: b6 :: b7 :: _ =>
    some (b7 ||| b6 <<< 8 ||| b5 <<< 16 ||| b4 <<< 24 |||
          b3 <<< 32 ||| b2 <<< 40 ||| b1 <<< 48 ||| b0 <<< 56)
  | _ => none

/-- The slice expression `data[lo:hi]`; it panics unless `lo <= hi <= len(data)`. -/
def slice (data : List Nat) (lo hi : Nat) : Option (List Nat) :=
  if lo ≤ hi ∧ hi ≤ data.length then some ((data.take hi).drop lo) else none

/-! ## Construction -/

/-- The function `Init`: the pair it returns, or `none` when it panics. -/
def Init (fl : Float64Ops) (elements : Int) (falsePositive : fl.F) :
    Option (Option Bloom × Option Err) :=
  if elements ≤ 0 then some (none, some Err.errElements)
  else if fl.le falsePositive (fl.ofInt 0) || fl.ge falsePositive (fl.ofInt 1) then
    some (none, some Err.errFalsePositive)
  else
    let m := fl.div (fl.mul (fl.mul (fl.ofInt (-1)) (fl.ofInt elements)) (fl.Log falsePositive))
      (fl.Pow (fl.Log (fl.ofInt 2)) (fl.ofInt 2))
    let k := fl.mul (fl.div m (fl.ofInt elements)) (fl.Log (fl.ofInt 2))
    let size := fl.toUint64 (fl.Ceil m)
    let hash := fl.toUint64 (fl.Ceil k)
    (make (size / 8 + 1)).map fun bits =>
      (some { size := size, hash := hash, bits := bits, mutex := true }, none)

/-- The variable `m` of `Init`: the number of bits, before `math.Ceil`. -/
def Init.m (fl : Float64Ops) (elements : Int) (falsePositive : fl.F) : fl.F :=
  fl.div (fl.mul (fl.mul (fl.ofInt (-1)) (fl.ofInt elements)) (fl.Log falsePositive))
    (fl.Pow (fl.Log (fl.ofInt 2)) (fl.ofInt 2))

/-- The variable `k` of `Init`: the number of hash operations, before
`math.Ceil`; it is computed from `m`, not from the size. -/
def Init.k (fl : Float64Ops) (elements : Int) (falsePositive : fl.F) : fl.F :=
  fl.mul (fl.div (Init.m fl elements falsePositive) (fl.ofInt elements)) (fl.Log (fl.ofInt 2))

/-- The function `InitByParameters`: the pair it returns, or `none` when it
panics. -/
def InitByParameters (size hashFunctions : Nat) : Option (Option Bloom × Option Err) :=
  if size ≤ 0 then some (none, some Err.errElements)
  else if hashFunctions ≤ 0 then some (none, some Err.errHash)
  else
    (make (size / 8 + 1)).map fun bits =>
      (some { size := size, hash := hashFunctions, bits := bits, mutex := true }, none)

/-! ## Add, Test, Reset, Merge -/

/-- The loop of `Add`: `n` rounds are left, `i` is the loop variable. -/
def Add.loop (getRound : Nat → Nat) (size : Nat) : Nat → Nat → List Nat → Option (List Nat)
  | 0, _, bits => some bits
  | n + 1, i, bits =>
    if size = 0 then none
    else
      let index := getRound i % size
      match bits[index / 8]? with
      | none => none
      | some b => Add.loop getRound size n (i + 1) (bits.set (index / 8) (b ||| 1 <<< (index % 8)))

/-- The method `Add`: the filter afterwards. -/
def Add (H : Hasher) (r : Bloom) (data : List Nat) : Option Bloom :=
  let hash := H.generateMultiHash data
  if r.mutex then
    (Add.loop (H.getRound hash) r.size r.hash 0 r.bits).map fun bits => { r with bits := bits }
  else none

/-- The method `GetSize`. -/
def GetSize (r : Bloom) : Nat := r.size

/-- The method `Reset`: the filter afterwards. -/
def Reset (r : Bloom) : Option Bloom :=
  if r.mutex then (make (r.size / 8 + 1)).map fun bits => { r with bits := bits } else none

/-- The loop of `Test`: `n` rounds are left, `i` is the loop variable. -/
def Test.loop (getRound : Nat → Nat) (size : Nat) (bits : List Nat) : Nat → Nat → Option Bool
  | 0, _ => some true
  | n + 1, i =>
    if size = 0 then none
    else
      let index := getRound i % size
      match bits[index / 8]? with
      | none => none
      | some b => if b &&& 1 <<< (index % 8) = 0 then some false
                  else Test.loop getRound size bits n (i + 1)

/-- The method `Test`. -/
def Test (H : Hasher) (r : Bloom) (data : List Nat) : Option Bool :=
  let hash := H.generateMultiHash data
  if r.mutex then Test.loop (H.getRound hash) r.size r.bits r.hash 0 else none

/-- The loop of `Merge`: `n` rounds are left, `i` is the loop variable, `rbits`
the buffer of the target and `mbits` that of the source. -/
def Merge.loop (mbits : List Nat) : Nat → Nat → List Nat → Option (List Nat)
  | 0, _, rbits => some rbits
  | n + 1, i, rbits =>
    match rbits[i]?, mbits[i]? with
    | some x, some y => Merge.loop mbits n (i + 1) (rbits.set i (x ||| y))
    | _, _ => none

/-- The method `Merge` on two distinct filters: the target afterwards, the
source afterwards and the error returned. -/
def Merge (r m : Bloom) : Option (Bloom × Bloom × Option Err) :=
  if r.size ≠ m.size ∨ r.hash ≠ m.hash then some (r, m, some Err.mergeParameters)
  else if r.mutex && m.mutex then
    (Merge.loop m.bits m.bits.length 0 r.bits).map fun bits => ({ r with bits := bits }, m, none)
  else none

/-! ## Serialisation -/

/-- The method `MarshalBinary`: the filter afterwards, the bytes and the error
returned. -/
def MarshalBinary (r : Bloom) : Option (Bloom × List Nat × Option Err) :=
  if r.mutex then do
    let out ← make (r.bits.length + 17)
    let out := out.set 0 1
    let out ← putUint64At out 1 r.size
    let out ← putUint64At out 9 r.hash
    let out ← copyAt out 17 r.bits
    pure (r, out, none)
  else none

/-- The method `UnmarshalBinary`: the filter afterwards and the error returned. -/
def UnmarshalBinary (r : Bloom) (data : List Nat) : Option (Bloom × Option Err) :=
  if data.length < 17 + 1 then some (r, some (Err.incorrectLength data.length))
  else
    match data[0]? with
    | none => none
    | some v =>
      if v ≠ 1 then some (r, some (Err.unexpectedVersion v))
      else do
        let size ← (slice data 1 9).bind Uint64
        let hash ← (slice data 9 17).bind Uint64
        let bits ← if r.bits.length ≠ size / 8 + 1 then make (size / 8 + 1) else some r.bits
        let tail ← slice data 17 data.length
        pure ({ size := size, hash := hash, bits := copy bits tail, mutex := true }, none)

/-- The method `MarshalStorage`: the filter afterwards, the bytes and the error
returned. -/
def MarshalStorage (r : Bloom) : Option (Bloom × List Nat × Option Err) :=
  if r.mutex then do
    let out ← make r.bits.length
    let src ← slice r.bits 1 r.bits.length
    pure (r, copy out src, none)
  else none

/-- The method `UnmarshalStorage`: the filter afterwards and the error
returned.  The new size is `(len(r.bits) - 1) * 8` computed in `int` and
converted to `uint64`. -/
def UnmarshalStorage (r : Bloom) (data : List Nat) (hash : Nat) : Option (Bloom × Option Err) :=
  if data.length < 17 + 1 then some (r, some (Err.incorrectLength data.length))
  else do
    let size := ((((r.bits.length : Int) - 1) * 8) % (2 : Int) ^ 64).toNat
    let bits ← if r.bits.length ≠ size / 8 + 1 then make (size / 8 + 1) else some r.bits
    let bits ← copyAt bits 1 data
    pure ({ size := size, hash := hash, bits := bits, mutex := true }, none)

/-! ## Predicates used in the statements -/

/-- The shape the constructors establish: `len(bits) = size/8 + 1`. -/
def Valid (r : Bloom) : Prop := r.bits.length = r.size / 8 + 1

instance (r : Bloom) : Decidable (Valid r) := by unfold Valid; infer_instance

/-- Round value `g` hits a set bit: with `index = g % size`, the byte
`bits[index/8]` exists and has bit `index % 8` set. -/
def Hit (size : Nat) (bits : List Nat) (g : Nat) : Prop :=
  size ≠ 0 ∧ ∃ b : Nat, bits[g % size / 8]? = some b ∧ b.testBit (g % size % 8) = true

/-- Buffer `b` has the length of `a` and every bit that is set in `a`. -/
def Covers (a b : List Nat) : Prop :=
  a.length = b.length ∧
    ∀ (j x : Nat), a[j]? = some x →
      ∃ y : Nat, b[j]? = some y ∧ ∀ i, x.testBit i = true → y.testBit i = true

/-- A step that only adds members: an `Add`, or a `Merge` from a source. -/
inductive Op where
  /-- The call `r.Add(data)` -/
  | add (data : List Nat)
  /-- The call `r.Merge(source)` -/
  | merge (source : Bloom)

/-- One step on the target; a `Merge` counts when it returns a nil error. -/
def applyOp (H : Hasher) (r : Bloom) : Op → Option Bloom
  | Op.add data => Add H r data
  | Op.merge source =>
    match Merge r source with
    | some (r', _, none) => some r'
    | _ => none

/-- A sequence of steps on the target, from left to right. -/
def applyOps (H : Hasher) (r : Bloom) : List Op → Option Bloom
  | [] => some r
  | op :: ops => (applyOp H r op).bind fun r' => applyOps H r' ops

/-- A hasher to evaluate the definitions with: the digest is the sum of the
bytes and round `i` is `digest + 3 * i`. -/
def sumHasher : Hasher :=
  { Digest := Nat, generateMultiHash := fun d => d.sum, getRound := fun h i => h + 3 * i }

/-- The 8-byte big-endian encoding of `v` in the words of the wire format:
byte `i` is digit `7 - i` of `v` in base 256. -/
def bigEndian8 (v : Nat) : List Nat :=
  [v / 256 ^ 7 % 256, v / 256 ^ 6 % 256, v / 256 ^ 5 % 256, v / 256 ^ 4 % 256,
   v / 256 ^ 3 % 256, v / 256 ^ 2 % 256, v / 256 ^ 1 % 256, v / 256 ^ 0 % 256]

/-- Filters that start from a construction or decoding with non-zero
parameters and are then changed by calls of the package: `InitByParameters`;
`UnmarshalBinary` of a buffer whose size and hash fields are not zero;
`UnmarshalStorage` with a non-zero hash argument on a receiver whose buffer
length is not 1 and at most `2 ^ 61`; `Add`; `Reset`; a `Merge` that returns a
nil error. -/
inductive Reach (H : Hasher) : Bloom → Prop
  /-- The call `InitByParameters(size, k)` returned `f`. -/
  | init (size k : Nat) (f : Bloom) :
      InitByParameters size k = some (some f, none) → Reach H f
  /-- The call `r.UnmarshalBinary(data)` returned nil, the header fields not zero. -/
  | unmarshalBinary (r f : Bloom) (data : List Nat) :
      UnmarshalBinary r data = some (f, none) →
      (slice data 1 9).bind Uint64 ≠ some 0 → (slice data 9 17).bind Uint64 ≠ some 0 →
      Reach H f
  /-- The call `r.UnmarshalStorage(data, hash)` returned nil, with `hash > 0`. -/
  | unmarshalStorage (r f : Bloom) (data : List Nat) (hash : Nat) :
      UnmarshalStorage r data hash = some (f, none) →
      0 < hash → r.bits.length ≠ 1 → r.bits.length ≤ 2 ^ 61 → Reach H f
  /-- The call `f.Add(data)` returned. -/
  | add (f f' : Bloom) (data : List Nat) : Reach H f → Add H f data = some f' → Reach H f'
  /-- The call `f.Reset()` returned. -/
  | reset (f f' : Bloom) : Reach H f → Reset f = some f' → Reach H f'
  /-- The call `f.Merge(m)` returned nil. -/
  | merge (f f' m m' : Bloom) : Reach H f → Merge f m = some (f', m', none) → Reach H f'

/-- Filters the package hands out or leaves behind: the zero value, what
`Init` and `InitByParameters` return, and a filter after any call on it that
returns (with or without an error). -/
inductive Produced (H : Hasher) : Bloom → Prop
  /-- The zero value `Bloom{}`. -/
  | zeroValue : Produced H Bloom.zeroValue
  /-- The call `Init(elements, falsePositive)` returned `f`. -/
  | init (fl : Float64Ops) (elements : Int) (falsePositive : fl.F) (f : Bloom) (e : Option Err) :
      Init fl elements falsePositive = some (some f, e) → Produced H f
  /-- The call `InitByParameters(size, k)` returned `f`. -/
  | initByParameters (size k : Nat) (f : Bloom) (e : Option Err) :
      InitByParameters size k = some (some f, e) → Produced H f
  /-- The call `f.Add(data)` returned. -/
  | add (f f' : Bloom) (data : List Nat) : Produced H f → Add H f data = some f' → Produced H f'
  /-- The call `f.Reset()` returned. -/
  | reset (f f' : Bloom) : Produced H f → Reset f = some f' → Produced H f'
  /-- The call `f.Merge(m)` returned. -/
  | merge (f f' m m' : Bloom) (e : Option Err) :
      Produced H f → Merge f m = some (f', m', e) → Produced H f'
  /-- The call `f.UnmarshalBinary(data)` returned. -/
  | unmarshalBinary (f f' : Bloom) (data : List Nat) (e : Option Err) :
      Produced H f → UnmarshalBinary f data = some (f', e) → Produced H f'
  /-- The call `f.UnmarshalStorage(data, hash)` returned. -/
  | unmarshalStorage (f f' : Bloom) (data : List Nat) (hash : Nat) (e : Option Err) :
      Produced H f → UnmarshalStorage f data hash = some (f', e) → Produced H f'

/-- The type `float64` as the binary64 numbers of `Float`, to evaluate `Init`
with. -/
def binary64 : Float64Ops :=
  { F := Float
    ofInt := Float.ofInt
    mul := fun x y => x * y
    div := fun x y => x / y
    Log := Float.log
    Pow := Float.pow
    Ceil := Float.ceil
    toUint64 := fun x => x.toUInt64.toNat
    le := fun x y => decide (x ≤ y)
    ge := fun x y => decide (x ≥ y) }

/-- The size `UnmarshalStorage` derives from a buffer of `len` bytes:
`uint64((len - 1) * 8)`, the product taken in `int`. -/
def storageSize (len : Nat) : Nat := ((((len : Int) - 1) * 8) % (2 : Int) ^ 64).toNat

/-! ## Relationship fingerprint (package `e2e`, file `relationshipFingerprint.go`)

A `*cyclic.Int` is its integer value and an `*id.ID` its bytes; a hash is the
list of the bytes written to it so far. -/

/-- What `MakeRelationshipFingerprint` takes from other packages. -/
structure Collaborators where
  /-- The call `hash.NewCMixHash()`: `none` when it returns an error, otherwise
  the digest `h.Sum(nil)` as a function of the bytes written to `h`. -/
  NewCMixHash : Option (List Nat → List Nat)
  /-- The method `Bytes` of `*cyclic.Int`. -/
  Bytes : Int → List Nat

/-- The method `Cmp` of `*cyclic.Int`: -1, 0 or 1 as `a` is less than, equal
to or greater than `b`. -/
def Cmp (a b : Int) : Int := if a < b then -1 else if a = b then 0 else 1

/-- The method `Write` of a hash: the bytes written so far, afterwards. -/
def Write (h p : List Nat) : List Nat := h ++ p

/-- The function `MakeRelationshipFingerprint`; `none` is the panic of
`jww.FATAL.Panicf` when no hash is to be had. -/
def MakeRelationshipFingerprint (c : Collaborators) (pubkeyA pubkeyB : Int)
    (sender receiver : List Nat) : Option (List Nat) :=
  match c.NewCMixHash with
  | none => none
  | some Sum =>
    let h : List Nat := []
    let h :=
      if Cmp pubkeyA pubkeyB = 1 then
        Write (Write h (c.Bytes pubkeyA)) (c.Bytes pubkeyB)
      else if Cmp pubkeyA pubkeyB = -1 then
        Write (Write h (c.Bytes pubkeyB)) (c.Bytes pubkeyA)
      else
        Write (Write h (c.Bytes pubkeyB)) (c.Bytes pubkeyA)
    let h := Write h sender
    let h := Write h receiver
    some (Sum h)

/-- Collaborators to evaluate with: the digest is the byte stream itself and
the bytes of a key are the base-256 digits of its absolute value, most
significant first. -/
def plainCollaborators : Collaborators :=
  { NewCMixHash := some id, Bytes := fun k => (Nat.digits 256 k.natAbs).reverse }

/-- The buffer length in the words of the specification: `⌈size/8⌉ + 1`. -/
def specBitsLength (size : Nat) : Nat := (size + 7) / 8 + 1

/-- The logarithms the stand-in `exact64` knows, to sixteen digits: `ln 2`,
`ln 0.3` and `ln 0.01`; at every other argument it answers NaN. -/
def lnTable (x : ℚ) : Option ℚ :=
  if x = 2 then some (6931471805599453 / 10 ^ 16)
  else if x = 3 / 10 then some (-12039728043259361 / 10 ^ 16)
  else if x = 1 / 100 then some (-4605170185988091 / 10 ^ 15)
  else none

/-- A stand-in for `float64` to evaluate `Init` with: the rational numbers,
with exact arithmetic, and one NaN (`none`), which every operation hands on and
for which both comparisons are false.  `math.Log` is the table `lnTable`,
`math.Pow` knows the exponent 2, and `uint64(x)` of a NaN or of a number out of
range is `1 << 63`, as on amd64.  It differs from `float64` by the rounding of
each operation, a relative error of about `1e-16`. -/
def exact64 : Float64Ops :=
  { F := Option ℚ
    ofInt := fun n => some (n : ℚ)
    mul := fun x y =>
      match x, y with
      | some a, some b => some (a * b)
      | _, _ => none
    div := fun x y =>
      match x, y with
      | some a, some b => if b = 0 then none else some (a / b)
      | _, _ => none
    Log := fun x =>
      match x with
      | some a => lnTable a
      | none => none
    Pow := fun x y =>
      match x, y with
      | some a, some b => if b = 2 then some (a * a) else none
      | _, _ => none
    Ceil := fun x => x.map fun a => ((Rat.ceil a : Int) : ℚ)
    toUint64 := fun x =>
      match x with
      | some a => if 0 ≤ a ∧ a < 2 ^ 64 then (Rat.floor a).toNat else 2 ^ 63
      | none => 2 ^ 63
    le := fun x y =>
      match x, y with
      | some a, some b => decide (a ≤ b)
      | _, _ => false
    ge := fun x y =>
      match x, y with
      | some a, some b => decide (a ≥ b)
      | _, _ => false }

/-- The hash-round count in the words of the specification:
`ceil((m / elements) * ln 2)` with the size for `m`. -/
def specHashRounds (fl : Float64Ops) (size : Nat) (elements : Int) : Nat :=
  fl.toUint64 (fl.Ceil (fl.mul (fl.div (fl.ofInt size) (fl.ofInt elements))
    (fl.Log (fl.ofInt 2))))

/-! ## Bytes and bits -/

theorem and_mask_ne_zero_iff (b k : Nat) : b &&& 1 <<< k ≠ 0 ↔ b.testBit k = true := by
  rw [Nat.one_shiftLeft]
  constructor
  · intro h
    obtain ⟨i, hi⟩ := Nat.ne_zero_implies_bit_true h
    rw [Nat.testBit_and, Nat.testBit_two_pow] at hi
    simp only [Bool.and_eq_true, decide_eq_true_eq] at hi
    obtain ⟨h1, h2⟩ := hi
    rw [h2]; exact h1
  · intro h h0
    have h1 : (b &&& 2 ^ k).testBit k = true := by
      rw [Nat.testBit_and, Nat.testBit_two_pow_self, h]; rfl
    rw [h0] at h1
    simp at h1

theorem testBit_or_mask (b k i : Nat) :
    (b ||| 1 <<< k).testBit i = (b.testBit i || decide (k = i)) := by
  rw [Nat.one_shiftLeft, Nat.testBit_or, Nat.testBit_two_pow]

theorem or_mask_of_testBit {b k : Nat} (h : b.testBit k = true) : b ||| 1 <<< k = b := by
  apply Nat.eq_of_testBit_eq
  intro i
  rw [testBit_or_mask]
  by_cases hki : k = i
  · subst hki; simp [h]
  · simp [hki]

theorem Covers.refl (a : List Nat) : Covers a a :=
  ⟨rfl, fun _ x hx => ⟨x, hx, fun _ h => h⟩⟩

theorem Covers.trans {a b c : List Nat} (hab : Covers a b) (hbc : Covers b c) : Covers a c := by
  refine ⟨hab.1.trans hbc.1, ?_⟩
  intro j x hx
  obtain ⟨y, hy, hxy⟩ := hab.2 j x hx
  obtain ⟨z, hz, hyz⟩ := hbc.2 j y hy
  exact ⟨z, hz, fun i hi => hyz i (hxy i hi)⟩

theorem Covers.set_or {a : List Nat} {j b : Nat} (c : Nat) (hb : a[j]? = some b) :
    Covers a (a.set j (b ||| c)) := by
  refine ⟨by simp, ?_⟩
  intro i x hx
  by_cases hij : j = i
  · subst hij
    have hlt : j < a.length := by
      rcases Nat.lt_or_ge j a.length with h | h
      · exact h
      · rw [List.getElem?_eq_none h] at hb; cases hb
    refine ⟨b ||| c, by simp [List.getElem?_set, hlt], ?_⟩
    intro k hk
    rw [hb] at hx
    cases hx
    simp [hk]
  · exact ⟨x, by simp [List.getElem?_set, hij, hx], fun _ h => h⟩

theorem Hit.mono {size : Nat} {a b : List Nat} {g : Nat} (h : Hit size a g) (hab : Covers a b) :
    Hit size b g := by
  obtain ⟨hs, x, hx, hbit⟩ := h
  obtain ⟨y, hy, hxy⟩ := hab.2 _ x hx
  exact ⟨hs, y, hy, hxy _ hbit⟩

/-! ## The loops of Test and Add -/

theorem Test_loop_eq_true_iff (getRound : Nat → Nat) (size : Nat) (bits : List Nat) (n i : Nat) :
    Test.loop getRound size bits n i = some true ↔
      ∀ k, k < n → Hit size bits (getRound (i + k)) := by
  induction n generalizing i with
  | zero => simp [Test.loop]
  | succ n ih =>
    rw [Test.loop]
    by_cases hs : size = 0
    · simp only [hs, if_true]
      constructor
      · intro h; cases h
      · intro h; exact absurd rfl (h 0 (Nat.succ_pos n)).1
    · simp only [hs, if_false]
      cases hb : bits[getRound i % size / 8]? with
      | none =>
        simp only []
        constructor
        · intro h; cases h
        · intro h
          obtain ⟨_, b, hb', _⟩ := h 0 (Nat.succ_pos n)
          rw [Nat.add_zero, hb] at hb'
          cases hb'
      | some b =>
        simp only []
        by_cases hbit : b &&& 1 <<< (getRound i % size % 8) = 0
        · simp only [hbit, if_true]
          constructor
          · intro h; cases h
          · intro h
            obtain ⟨_, b', hb', hset⟩ := h 0 (Nat.succ_pos n)
            rw [Nat.add_zero, hb] at hb'
            cases hb'
            exact absurd hbit ((and_mask_ne_zero_iff _ _).2 hset)
        · simp only [hbit, if_false]
          rw [ih]
          constructor
          · intro h k hk
            cases k with
            | zero => exact ⟨hs, b, hb, (and_mask_ne_zero_iff _ _).1 hbit⟩
            | succ k =>
              have := h k (Nat.lt_of_succ_lt_succ hk)
              rwa [Nat.add_assoc, Nat.add_comm 1 k] at this
          · intro h k hk
            have := h (k + 1) (Nat.succ_lt_succ hk)
            rwa [Nat.add_assoc, Nat.add_comm 1 k]

theorem Add_loop_total (getRound : Nat → Nat) (size : Nat) (hs : size ≠ 0) (n i : Nat)
    (bits : List Nat) (hlen : size / 8 < bits.length) :
    ∃ bits', Add.loop getRound size n i bits = some bits' := by
  induction n generalizing i bits with
  | zero => exact ⟨bits, rfl⟩
  | succ n ih =>
    have hidx : getRound i % size / 8 < bits.length :=
      Nat.lt_of_le_of_lt (Nat.div_le_div_right (Nat.le_of_lt (Nat.mod_lt _ (Nat.pos_of_ne_zero hs))))
        hlen
    have hb : bits[getRound i % size / 8]? = some bits[getRound i % size / 8] :=
      List.getElem?_eq_getElem hidx
    obtain ⟨bits', hrun⟩ := ih (i + 1)
      (bits.set (getRound i % size / 8)
        (bits[getRound i % size / 8] ||| 1 <<< (getRound i % size % 8)))
      (by simpa using hlen)
    refine ⟨bits', ?_⟩
    rw [Add.loop]
    simp only [hs, if_false, hb]
    exact hrun

theorem Add_loop_fixed (getRound : Nat → Nat) (size : Nat) (n i : Nat) (bits : List Nat)
    (h : ∀ k, k < n → Hit size bits (getRound (i + k))) :
    Add.loop getRound size n i bits = some bits := by
  induction n generalizing i with
  | zero => rfl
  | succ n ih =>
    obtain ⟨hs, b, hb, hset⟩ := h 0 (Nat.succ_pos n)
    rw [Nat.add_zero] at hb hset
    rw [Add.loop]
    simp only [hs, if_false, hb, or_mask_of_testBit hset]
    have hself : bits.set (getRound i % size / 8) b = bits := by
      apply List.ext_getElem?
      intro j
      by_cases hj : getRound i % size / 8 = j
      · subst hj
        rw [List.getElem?_set]
        simp only [if_true]
        split
        · exact hb.symm
        · rename_i hnot
          rw [List.getElem?_eq_none (Nat.le_of_not_lt hnot)] at hb; cases hb
      · rw [List.getElem?_set]; simp [hj]
    rw [hself]
    apply ih
    intro k hk
    have := h (k + 1) (Nat.succ_lt_succ hk)
    rwa [Nat.add_assoc, Nat.add_comm 1 k]

/-- When the loop of `Add` ends, every round hits a set bit of the result and
the result covers the buffer it started from. -/
theorem Add_loop_post (getRound : Nat → Nat) (size : Nat) (n i : Nat) (bits bits' : List Nat)
    (h : Add.loop getRound size n i bits = some bits') :
    Covers bits bits' ∧ ∀ k, k < n → Hit size bits' (getRound (i + k)) := by
  induction n generalizing i bits with
  | zero =>
    rw [Add.loop] at h
    cases h
    exact ⟨Covers.refl _, fun k hk => absurd hk (Nat.not_lt_zero k)⟩
  | succ n ih =>
    rw [Add.loop] at h
    by_cases hs : size = 0
    · simp [hs] at h
    · simp only [hs, if_false] at h
      cases hb : bits[getRound i % size / 8]? with
      | none => rw [hb] at h; cases h
      | some b =>
        rw [hb] at h
        simp only [] at h
        obtain ⟨hcov, hhit⟩ := ih _ _ h
        have hidx : getRound i % size / 8 < bits.length := by
          rcases Nat.lt_or_ge (getRound i % size / 8) bits.length with h' | h'
          · exact h'
          · rw [List.getElem?_eq_none h'] at hb; cases hb
        refine ⟨(Covers.set_or _ hb).trans hcov, ?_⟩
        intro k hk
        cases k with
        | zero =>
          have h0 : Hit size (bits.set (getRound i % size / 8)
              (b ||| 1 <<< (getRound i % size % 8))) (getRound (i + 0)) := by
            refine ⟨hs, b ||| 1 <<< (getRound i % size % 8), ?_, ?_⟩
            · simp [List.getElem?_set, hidx]
            · rw [testBit_or_mask]; simp
          exact Hit.mono h0 hcov
        | succ k =>
          have := hhit k (Nat.lt_of_succ_lt_succ hk)
          rwa [Nat.add_assoc, Nat.add_comm 1 k] at this

/-! ## The loop of Merge -/

theorem Merge_loop_total (mbits : List Nat) (n i : Nat) (rbits : List Nat)
    (hn : i + n = mbits.length) (hlen : mbits.length ≤ rbits.length) :
    ∃ rbits', Merge.loop mbits n i rbits = some rbits' := by
  induction n generalizing i rbits with
  | zero => exact ⟨rbits, rfl⟩
  | succ n ih =>
    have hi : i < mbits.length := by omega
    have hr : rbits[i]? = some rbits[i] := List.getElem?_eq_getElem (by omega)
    have hm : mbits[i]? = some mbits[i] := List.getElem?_eq_getElem hi
    obtain ⟨rbits', hrun⟩ := ih (i + 1) (rbits.set i (rbits[i] ||| mbits[i])) (by omega)
      (by simpa using hlen)
    refine ⟨rbits', ?_⟩
    rw [Merge.loop, hr, hm]
    exact hrun

/-- When the loop of `Merge` ends, the result covers the buffer of the target
and holds every bit of the bytes `i .. i + n - 1` of the source. -/
theorem Merge_loop_post (mbits : List Nat) (n i : Nat) (rbits rbits' : List Nat)
    (h : Merge.loop mbits n i rbits = some rbits') :
    Covers rbits rbits' ∧
      ∀ (j y : Nat), i ≤ j → j < i + n → mbits[j]? = some y →
        ∃ z : Nat, rbits'[j]? = some z ∧ ∀ t, y.testBit t = true → z.testBit t = true := by
  induction n generalizing i rbits with
  | zero =>
    rw [Merge.loop] at h
    cases h
    exact ⟨Covers.refl _, fun j y h1 h2 => absurd h2 (by omega)⟩
  | succ n ih =>
    rw [Merge.loop] at h
    cases hr : rbits[i]? with
    | none => simp [hr] at h
    | some x =>
      cases hm : mbits[i]? with
      | none => simp [hr, hm] at h
      | some y0 =>
        simp only [hr, hm] at h
        obtain ⟨hcov, hsrc⟩ := ih _ _ h
        have hidx : i < rbits.length := by
          rcases Nat.lt_or_ge i rbits.length with h' | h'
          · exact h'
          · rw [List.getElem?_eq_none h'] at hr; cases hr
        refine ⟨(Covers.set_or _ hr).trans hcov, ?_⟩
        intro j y h1 h2 hy
        by_cases hij : i = j
        · subst hij
          rw [hm] at hy
          cases hy
          obtain ⟨z, hz, hxz⟩ := hcov.2 i (x ||| y0) (by simp [List.getElem?_set, hidx])
          refine ⟨z, hz, fun t ht => hxz t ?_⟩
          simp [ht]
        · exact hsrc j y (by omega) (by omega) hy

theorem Merge_loop_covers_source (mbits rbits rbits' : List Nat)
    (hlen : mbits.length = rbits.length)
    (h : Merge.loop mbits mbits.length 0 rbits = some rbits') : Covers mbits rbits' := by
  obtain ⟨hcov, hsrc⟩ := Merge_loop_post _ _ _ _ _ h
  refine ⟨hlen.trans hcov.1, ?_⟩
  intro j y hy
  have hj : j < mbits.length := by
    rcases Nat.lt_or_ge j mbits.length with h' | h'
    · exact h'
    · rw [List.getElem?_eq_none h'] at hy; cases hy
  exact hsrc j y (Nat.zero_le j) (by omega) hy

/-! ## Test through Hit -/

theorem Test_eq_true_iff (H : Hasher) (r : Bloom) (data : List Nat) :
    Test H r data = some true ↔
      r.mutex = true ∧
        ∀ k, k < r.hash → Hit r.size r.bits (H.getRound (H.generateMultiHash data) k) := by
  unfold Test
  cases hm : r.mutex with
  | false => simp
  | true =>
    simp only [if_true, true_and]
    rw [Test_loop_eq_true_iff]
    simp

/-! ## What Add and a successful Merge leave behind -/

theorem Add_post (H : Hasher) (r r' : Bloom) (data : List Nat) (h : Add H r data = some r') :
    r'.size = r.size ∧ r'.hash = r.hash ∧ r'.mutex = true ∧ r.mutex = true ∧
      Covers r.bits r'.bits ∧
      ∀ k, k < r.hash → Hit r.size r'.bits (H.getRound (H.generateMultiHash data) k) := by
  unfold Add at h
  cases hm : r.mutex with
  | false => simp [hm] at h
  | true =>
    simp only [hm, if_true, Option.map_eq_some'] at h
    obtain ⟨bits, hloop, hr⟩ := h
    obtain ⟨hcov, hhit⟩ := Add_loop_post _ _ _ _ _ _ hloop
    subst hr
    refine ⟨rfl, rfl, rfl, rfl, hcov, ?_⟩
    intro k hk
    have := hhit k hk
    rwa [Nat.zero_add] at this

theorem Add_total (H : Hasher) (r : Bloom) (data : List Nat) (hs : r.size ≠ 0)
    (hlen : r.size / 8 < r.bits.length) (hm : r.mutex = true) : ∃ r', Add H r data = some r' := by
  obtain ⟨bits', h⟩ :=
    Add_loop_total (H.getRound (H.generateMultiHash data)) r.size hs r.hash 0 r.bits hlen
  exact ⟨{ r with bits := bits' }, by simp [Add, hm, h]⟩

theorem Merge_post (r m r' m' : Bloom) (h : Merge r m = some (r', m', none)) :
    r'.size = r.size ∧ r'.hash = r.hash ∧ r'.mutex = true ∧ m' = m ∧ r.size = m.size ∧
      r.hash = m.hash ∧ Covers r.bits r'.bits ∧
      Merge.loop m.bits m.bits.length 0 r.bits = some r'.bits := by
  unfold Merge at h
  by_cases hp : r.size ≠ m.size ∨ r.hash ≠ m.hash
  · simp [hp] at h
  · rw [if_neg hp] at h
    have hp' : r.size = m.size ∧ r.hash = m.hash := by
      constructor
      · exact Classical.not_not.1 fun hne => hp (Or.inl hne)
      · exact Classical.not_not.1 fun hne => hp (Or.inr hne)
    cases hlock : (r.mutex && m.mutex) with
    | false => simp [hlock] at h
    | true =>
      simp only [hlock, if_true, Option.map_eq_some'] at h
      obtain ⟨bits, hloop, hr⟩ := h
      simp only [Prod.mk.injEq] at hr
      obtain ⟨hr1, hr2, _⟩ := hr
      subst hr1
      have hmr : r.mutex = true := by
        cases hrm : r.mutex with
        | false => simp [hrm] at hlock
        | true => rfl
      exact ⟨rfl, rfl, hmr, hr2.symm, hp'.1, hp'.2, (Merge_loop_post _ _ _ _ _ hloop).1, hloop⟩

theorem applyOp_post (H : Hasher) (r r' : Bloom) (op : Op) (h : applyOp H r op = some r') :
    r'.size = r.size ∧ r'.hash = r.hash ∧ r'.mutex = true ∧ Covers r.bits r'.bits := by
  cases op with
  | add data =>
    obtain ⟨h1, h2, h3, _, h5, _⟩ := Add_post H r r' data h
    exact ⟨h1, h2, h3, h5⟩
  | merge source =>
    simp only [applyOp] at h
    cases hm : Merge r source with
    | none => simp [hm] at h
    | some res =>
      obtain ⟨a, b, e⟩ := res
      cases e with
      | some e => simp [hm] at h
      | none =>
        simp only [hm, Option.some.injEq] at h
        subst h
        obtain ⟨h1, h2, h3, _, _, _, h7, _⟩ := Merge_post r source a b hm
        exact ⟨h1, h2, h3, h7⟩

theorem applyOps_post (H : Hasher) (ops : List Op) (r g : Bloom) (h : applyOps H r ops = some g) :
    g.size = r.size ∧ g.hash = r.hash ∧ (r.mutex = true → g.mutex = true) ∧
      Covers r.bits g.bits := by
  induction ops generalizing r with
  | nil =>
    simp only [applyOps, Option.some.injEq] at h
    subst h
    exact ⟨rfl, rfl, id, Covers.refl _⟩
  | cons op ops ih =>
    simp only [applyOps, Option.bind_eq_some] at h
    obtain ⟨r', h1, h2⟩ := h
    obtain ⟨a1, a2, a3, a4⟩ := applyOp_post H r r' op h1
    obtain ⟨b1, b2, b3, b4⟩ := ih r' h2
    exact ⟨b1.trans a1, b2.trans a2, fun _ => b3 a3, a4.trans b4⟩

/-! ## Allocation -/

theorem make_of_le (n : Nat) (h : n ≤ maxAlloc) : make n = some (zeros n) := by
  unfold make
  rw [if_pos h]

theorem make_of_gt (n : Nat) (h : maxAlloc < n) : make n = none := by
  unfold make
  rw [if_neg (Nat.not_le.2 h)]

theorem make_eq_some (n : Nat) (l : List Nat) (h : make n = some l) :
    l = zeros n ∧ n ≤ maxAlloc := by
  unfold make at h
  by_cases hn : n ≤ maxAlloc
  · rw [if_pos hn] at h
    exact ⟨(Option.some.inj h).symm, hn⟩
  · rw [if_neg hn] at h
    cases h

theorem zeros_length (n : Nat) : (zeros n).length = n := by
  simp [zeros]

theorem zeros_mem (n b : Nat) (h : b ∈ zeros n) : b = 0 :=
  (List.mem_replicate.1 h).2

theorem zeros_getElem? (n j : Nat) (h : j < n) : (zeros n)[j]? = some 0 := by
  unfold zeros
  rw [List.getElem?_replicate, if_pos h]

/-! ## The wire format -/

theorem PutUint64_eq_bigEndian8 (v : Nat) : PutUint64 v = bigEndian8 v := by
  simp only [PutUint64, bigEndian8, Nat.shiftRight_eq_div_pow]
  norm_num

theorem MarshalBinary_eq (f : Bloom) (hlock : f.mutex = true)
    (halloc : f.bits.length + 17 ≤ maxAlloc) :
    MarshalBinary f =
      some (f, 1 :: (PutUint64 f.size ++ (PutUint64 f.hash ++ f.bits)), none) := by
  unfold MarshalBinary
  simp only [hlock, if_true, make_of_le _ halloc, zeros]
  simp [List.replicate_succ, putUint64At, copyAt, copy, PutUint64]
  omega

theorem Uint64_PutUint64 (v : Nat) (hv : v < 2 ^ 64) (rest : List Nat) :
    Uint64 (PutUint64 v ++ rest) = some v := by
  simp only [PutUint64, Uint64, List.cons_append, List.nil_append, Option.some.injEq]
  apply Nat.eq_of_testBit_eq
  intro i
  simp only [Nat.testBit_or, Nat.testBit_shiftLeft, Nat.testBit_mod_two_pow,
    Nat.testBit_shiftRight, show (256 : Nat) = 2 ^ 8 from rfl]
  by_cases hi : i < 64
  · interval_cases i <;> simp
  · have : v.testBit i = false := by
      apply Nat.testBit_lt_two_pow
      exact Nat.lt_of_lt_of_le hv (Nat.pow_le_pow_right (by decide) (by omega))
    simp [this]
    refine ⟨⟨⟨⟨⟨⟨?_, ?_⟩, ?_⟩, ?_⟩, ?_⟩, ?_⟩, ?_⟩ <;> intro h1 h2 <;> omega

theorem Uint64_of_length (b : List Nat) (h : 8 ≤ b.length) : ∃ v, Uint64 b = some v := by
  rcases b with _ | ⟨b0, _ | ⟨b1, _ | ⟨b2, _ | ⟨b3, _ | ⟨b4, _ | ⟨b5, _ | ⟨b6, _ | ⟨b7, t⟩⟩⟩⟩⟩⟩⟩⟩
  all_goals first
    | exact ⟨_, rfl⟩
    | simp at h

theorem slice_of_le (data : List Nat) (lo hi : Nat) (h1 : lo ≤ hi) (h2 : hi ≤ data.length) :
    slice data lo hi = some ((data.take hi).drop lo) := by
  simp [slice, h1, h2]

/-- A buffer of at least 18 bytes has a size field in bytes 1 to 8 and a hash
field in bytes 9 to 16. -/
theorem UnmarshalBinary_header (data : List Nat) (hlen : 18 ≤ data.length) :
    ∃ size hash, (slice data 1 9).bind Uint64 = some size ∧
      (slice data 9 17).bind Uint64 = some hash := by
  have hs1 : slice data 1 9 = some ((data.take 9).drop 1) := slice_of_le _ _ _ (by omega) (by omega)
  have hs2 : slice data 9 17 = some ((data.take 17).drop 9) :=
    slice_of_le _ _ _ (by omega) (by omega)
  obtain ⟨size, hsize⟩ := Uint64_of_length ((data.take 9).drop 1) (by simp; omega)
  obtain ⟨hash, hhash⟩ := Uint64_of_length ((data.take 17).drop 9) (by simp; omega)
  exact ⟨size, hash, by rw [hs1]; exact hsize, by rw [hs2]; exact hhash⟩

/-- Past its two guards the decoder returns a nil error unless the allocation
of the buffer panics: it installs the header fields and copies the payload
into the receiver's buffer, or into a new one when the length differs from
`size/8 + 1`. -/
theorem UnmarshalBinary_eq (r : Bloom) (data : List Nat) (size hash : Nat)
    (hlen : 18 ≤ data.length) (hv : data[0]? = some 1)
    (hsize : (slice data 1 9).bind Uint64 = some size)
    (hhash : (slice data 9 17).bind Uint64 = some hash) :
    UnmarshalBinary r data =
      (if r.bits.length ≠ size / 8 + 1 then make (size / 8 + 1) else some r.bits).map
        fun bits =>
          ({ size := size, hash := hash, bits := copy bits (data.drop 17), mutex := true }, none) := by
  have hs3 : slice data 17 data.length = some (data.drop 17) := by
    rw [slice_of_le _ _ _ (by omega) (Nat.le_refl _), List.take_length]
  have hnot : ¬ data.length < 17 + 1 := by omega
  unfold UnmarshalBinary
  simp only [hnot, if_false, hv, hsize, hhash, hs3, Option.some_bind, Option.bind_eq_bind,
    ne_eq, not_true_eq_false, Option.pure_def]
  by_cases hne : r.bits.length = size / 8 + 1
  · simp [hne]
  · simp only [hne, not_false_eq_true, if_true, ne_eq]
    cases make (size / 8 + 1) <;> rfl

/-- The buffer the decoder copies into has `size/8 + 1` bytes. -/
theorem decode_buffer_length (r : Bloom) (size : Nat) (bits : List Nat)
    (h : (if r.bits.length ≠ size / 8 + 1 then make (size / 8 + 1) else some r.bits) = some bits) :
    bits.length = size / 8 + 1 := by
  split at h
  · rw [(make_eq_some _ _ h).1, zeros_length]
  · rename_i hne
    cases h
    exact Classical.not_not.1 hne

theorem UnmarshalBinary_short (r : Bloom) (data : List Nat) (h : data.length < 18) :
    UnmarshalBinary r data = some (r, some (Err.incorrectLength data.length)) := by
  unfold UnmarshalBinary
  rw [if_pos h]

theorem UnmarshalBinary_version (r : Bloom) (data : List Nat) (v : Nat) (h : 18 ≤ data.length)
    (hv : data[0]? = some v) (hne : v ≠ 1) :
    UnmarshalBinary r data = some (r, some (Err.unexpectedVersion v)) := by
  unfold UnmarshalBinary
  rw [if_neg (by omega)]
  simp only [hv]
  rw [if_pos hne]

/-- What a nil return of the decoder means: the two guards passed, the
buffer `bits` to copy into was there or could be allocated, and the receiver
has the header fields and the payload copied into `bits`. -/
theorem UnmarshalBinary_ok (r f : Bloom) (data : List Nat)
    (h : UnmarshalBinary r data = some (f, none)) :
    18 ≤ data.length ∧ data[0]? = some 1 ∧
      ∃ size hash bits, (slice data 1 9).bind Uint64 = some size ∧
        (slice data 9 17).bind Uint64 = some hash ∧
        (if r.bits.length ≠ size / 8 + 1 then make (size / 8 + 1) else some r.bits) = some bits ∧
        f = { size := size, hash := hash, bits := copy bits (data.drop 17), mutex := true } := by
  rcases Nat.lt_or_ge data.length 18 with hl | hl
  · rw [UnmarshalBinary_short r data hl] at h
    simp at h
  · have h0 : data[0]? = some data[0] := List.getElem?_eq_getElem (by omega)
    by_cases hv : data[0] = 1
    · rw [hv] at h0
      obtain ⟨size, hash, e1, e2⟩ := UnmarshalBinary_header data hl
      rw [UnmarshalBinary_eq r data size hash hl h0 e1 e2, Option.map_eq_some'] at h
      obtain ⟨bits, hb, hf⟩ := h
      simp only [Prod.mk.injEq, and_true] at hf
      exact ⟨hl, h0, size, hash, bits, e1, e2, hb, hf.symm⟩
    · rw [UnmarshalBinary_version r data _ hl h0 hv] at h
      simp at h

theorem UnmarshalBinary_error (r r' : Bloom) (data : List Nat) (e : Err)
    (h : UnmarshalBinary r data = some (r', some e)) : r' = r := by
  rcases Nat.lt_or_ge data.length 18 with hl | hl
  · rw [UnmarshalBinary_short r data hl] at h
    simp only [Option.some.injEq, Prod.mk.injEq] at h
    exact h.1.symm
  · have h0 : data[0]? = some data[0] := List.getElem?_eq_getElem (by omega)
    by_cases hv : data[0] = 1
    · rw [hv] at h0
      obtain ⟨size, hash, e1, e2⟩ := UnmarshalBinary_header data hl
      rw [UnmarshalBinary_eq r data size hash hl h0 e1 e2, Option.map_eq_some'] at h
      obtain ⟨bits, _, hf⟩ := h
      simp at hf
    · rw [UnmarshalBinary_version r data _ hl h0 hv] at h
      simp only [Option.some.injEq, Prod.mk.injEq] at h
      exact h.1.symm

theorem Merge_error (r m r' m' : Bloom) (e : Err) (h : Merge r m = some (r', m', some e)) :
    (r.size ≠ m.size ∨ r.hash ≠ m.hash) ∧ r' = r ∧ m' = m := by
  unfold Merge at h
  by_cases hp : r.size ≠ m.size ∨ r.hash ≠ m.hash
  · rw [if_pos hp] at h
    simp only [Option.some.injEq, Prod.mk.injEq] at h
    exact ⟨hp, h.1.symm, h.2.1.symm⟩
  · rw [if_neg hp] at h
    cases hlock : (r.mutex && m.mutex) with
    | false => simp [hlock] at h
    | true =>
      simp only [hlock, if_true, Option.map_eq_some'] at h
      obtain ⟨bits, _, hr⟩ := h
      simp at hr

/-! ## Claims -/

/-- C1. No false negatives: on a filter with `size > 0`, `len(bits) = size/8 + 1`
and an allocated lock, `Add(d)` returns, `Test(d)` is true right afterwards, and
it is still true after any further sequence of `Add` and successful `Merge`
calls on the filter; on every filter so obtained a further `Add` returns.  The
hash functions are arbitrary. -/
theorem Add_no_false_negative (H : Hasher) (f : Bloom) (d : List Nat) (hsize : 0 < f.size)
    (hvalid : Valid f) (hlock : f.mutex = true) :
    ∃ f1, Add H f d = some f1 ∧ Test H f1 d = some true ∧
      ∀ (ops : List Op) (g : Bloom), applyOps H f1 ops = some g →
        Test H g d = some true ∧ ∀ d' : List Nat, ∃ g', Add H g d' = some g' := by
  have hlen : f.size / 8 < f.bits.length := by rw [hvalid]; exact Nat.lt_succ_self _
  obtain ⟨f1, hadd⟩ := Add_total H f d (Nat.pos_iff_ne_zero.1 hsize) hlen hlock
  obtain ⟨h1, h2, h3, _, h5, h6⟩ := Add_post H f f1 d hadd
  have key : ∀ (ops : List Op) (g : Bloom), applyOps H f1 ops = some g →
      Test H g d = some true ∧ ∀ d' : List Nat, ∃ g', Add H g d' = some g' := by
    intro ops g hg
    obtain ⟨g1, g2, g3, g4⟩ := applyOps_post H ops f1 g hg
    constructor
    · rw [Test_eq_true_iff]
      refine ⟨g3 h3, ?_⟩
      intro k hk
      rw [g1, h1]
      rw [g2, h2] at hk
      exact Hit.mono (h6 k hk) g4
    · intro d'
      apply Add_total H g d'
      · rw [g1, h1]; exact Nat.pos_iff_ne_zero.1 hsize
      · rw [g1, h1, ← g4.1, ← h5.1]; exact hlen
      · exact g3 h3
  exact ⟨f1, hadd, (key [] f1 rfl).1, key⟩

/-- C1 at a concrete filter: size 20, three rounds, the datum `[1, 2]`. -/
theorem Add_no_false_negative_witness :
    ∃ f1, Add sumHasher { size := 20, bits := [0, 0, 0], hash := 3, mutex := true } [1, 2]
        = some f1 ∧ Test sumHasher f1 [1, 2] = some true ∧
      ∀ (ops : List Op) (g : Bloom), applyOps sumHasher f1 ops = some g →
        Test sumHasher g [1, 2] = some true ∧
          ∀ d' : List Nat, ∃ g', Add sumHasher g d' = some g' :=
  Add_no_false_negative sumHasher { size := 20, bits := [0, 0, 0], hash := 3, mutex := true }
    [1, 2] (by decide) (by decide) rfl

/-- C3. Merge is a union: for two filters with `len(bits) = size/8 + 1`, equal
size, equal hash-round count and allocated locks, `Merge(a, b)` returns a nil
error and leaves `b` as it was; every datum that tested true on `a` or on `b`
before the merge tests true on `a` after it. -/
theorem Merge_union (H : Hasher) (a b : Bloom) (ha : Valid a) (hb : Valid b)
    (hsize : a.size = b.size) (hhash : a.hash = b.hash) (hla : a.mutex = true)
    (hlb : b.mutex = true) :
    ∃ a', Merge a b = some (a', b, none) ∧
      ∀ d : List Nat, Test H a d = some true ∨ Test H b d = some true →
        Test H a' d = some true := by
  have hlen : b.bits.length = a.bits.length := by rw [ha, hb, hsize]
  obtain ⟨bits', hloop⟩ :=
    Merge_loop_total b.bits b.bits.length 0 a.bits (Nat.zero_add _) (Nat.le_of_eq hlen)
  have hm : Merge a b = some ({ a with bits := bits' }, b, none) := by
    simp [Merge, hsize, hhash, hla, hlb, hloop]
  refine ⟨_, hm, ?_⟩
  have hca : Covers a.bits bits' := (Merge_loop_post _ _ _ _ _ hloop).1
  have hcb : Covers b.bits bits' := Merge_loop_covers_source _ _ _ hlen hloop
  intro d hd
  rw [Test_eq_true_iff]
  refine ⟨hla, ?_⟩
  intro k hk
  rcases hd with hd | hd
  · rw [Test_eq_true_iff] at hd
    exact Hit.mono (hd.2 k hk) hca
  · rw [Test_eq_true_iff] at hd
    have hk' : k < b.hash := hhash ▸ hk
    have := Hit.mono (hd.2 k hk') hcb
    simpa [hsize] using this

/-- C3 at two concrete filters of size 20 with three rounds. -/
theorem Merge_union_witness :
    ∃ a', Merge { size := 20, bits := [72, 2, 0], hash := 3, mutex := true }
        { size := 20, bits := [1, 0, 4], hash := 3, mutex := true }
        = some (a', { size := 20, bits := [1, 0, 4], hash := 3, mutex := true }, none) ∧
      ∀ d : List Nat,
        Test sumHasher { size := 20, bits := [72, 2, 0], hash := 3, mutex := true } d = some true ∨
        Test sumHasher { size := 20, bits := [1, 0, 4], hash := 3, mutex := true } d = some true →
        Test sumHasher a' d = some true :=
  Merge_union sumHasher { size := 20, bits := [72, 2, 0], hash := 3, mutex := true }
    { size := 20, bits := [1, 0, 4], hash := 3, mutex := true } (by decide) (by decide) rfl rfl
    rfl rfl

/-- C4. Merge rejects incompatible filters atomically: `Merge(target, source)`
returns an error exactly when the sizes or the hash-round counts differ, and
when it returns an error the target and the source are what they were. -/
theorem Merge_error_iff (r m : Bloom) :
    ((∃ r' m' e, Merge r m = some (r', m', some e)) ↔ (r.size ≠ m.size ∨ r.hash ≠ m.hash)) ∧
      ∀ r' m' e, Merge r m = some (r', m', some e) → r' = r ∧ m' = m := by
  have hret : ∀ r' m' e, Merge r m = some (r', m', some e) →
      (r.size ≠ m.size ∨ r.hash ≠ m.hash) ∧ r' = r ∧ m' = m :=
    fun r' m' e h => Merge_error r m r' m' e h
  refine ⟨⟨?_, ?_⟩, fun r' m' e h => (hret r' m' e h).2⟩
  · rintro ⟨r', m', e, h⟩
    exact (hret r' m' e h).1
  · intro hp
    exact ⟨r, m, Err.mergeParameters, by unfold Merge; rw [if_pos hp]⟩

/-- C4 at a target of size 20 and a source of size 16: an error is returned. -/
theorem Merge_error_iff_witness :
    ∃ r' m' e, Merge { size := 20, bits := [72, 2, 0], hash := 3, mutex := true }
      { size := 16, bits := [1, 0, 4], hash := 3, mutex := true } = some (r', m', some e) :=
  (Merge_error_iff { size := 20, bits := [72, 2, 0], hash := 3, mutex := true }
    { size := 16, bits := [1, 0, 4], hash := 3, mutex := true }).1.2 (Or.inl (by decide))

/-- C2. Self-describing round trip: for a filter `f` with
`len(bits) = size/8 + 1`, an allocated lock and `uint64` parameters, whose
encoding of `len(bits) + 17` bytes is within the allocation limit, and a
receiver `r` in any state, `MarshalBinary(f)` returns bytes that
`UnmarshalBinary` accepts on `r`, and `r` is left with the size, the hash-round
count and the bit buffer of `f`. -/
theorem UnmarshalBinary_MarshalBinary (f r : Bloom) (hvalid : Valid f) (hlock : f.mutex = true)
    (hsize : f.size < 2 ^ 64) (hhash : f.hash < 2 ^ 64)
    (halloc : f.bits.length + 17 ≤ maxAlloc) :
    ∃ out r', MarshalBinary f = some (f, out, none) ∧ UnmarshalBinary r out = some (r', none) ∧
      r'.size = f.size ∧ r'.hash = f.hash ∧ r'.bits = f.bits := by
  have hlenb : f.bits.length = f.size / 8 + 1 := hvalid
  have hout := MarshalBinary_eq f hlock halloc
  have h1 : (slice (1 :: (PutUint64 f.size ++ (PutUint64 f.hash ++ f.bits))) 1 9).bind Uint64
      = some f.size := by
    have : slice (1 :: (PutUint64 f.size ++ (PutUint64 f.hash ++ f.bits))) 1 9
        = some (PutUint64 f.size ++ []) := by
      simp [slice, PutUint64]
    rw [this, Option.some_bind, Uint64_PutUint64 _ hsize]
  have h2 : (slice (1 :: (PutUint64 f.size ++ (PutUint64 f.hash ++ f.bits))) 9 17).bind Uint64
      = some f.hash := by
    have : slice (1 :: (PutUint64 f.size ++ (PutUint64 f.hash ++ f.bits))) 9 17
        = some (PutUint64 f.hash ++ []) := by
      simp [slice, PutUint64]
    rw [this, Option.some_bind, Uint64_PutUint64 _ hhash]
  have h3 : (1 :: (PutUint64 f.size ++ (PutUint64 f.hash ++ f.bits))).drop 17 = f.bits := by
    simp [PutUint64]
  have hdec := UnmarshalBinary_eq r (1 :: (PutUint64 f.size ++ (PutUint64 f.hash ++ f.bits)))
    f.size f.hash (by simp [PutUint64]; omega) rfl h1 h2
  have hbuf : ∃ bits,
      (if r.bits.length ≠ f.size / 8 + 1 then make (f.size / 8 + 1) else some r.bits)
        = some bits := by
    by_cases hne : r.bits.length ≠ f.size / 8 + 1
    · rw [if_pos hne, make_of_le _ (by omega)]
      exact ⟨_, rfl⟩
    · rw [if_neg hne]
      exact ⟨_, rfl⟩
  obtain ⟨bits, hbits⟩ := hbuf
  have hl : bits.length = f.bits.length := by
    rw [decode_buffer_length r f.size bits hbits, hlenb]
  rw [hbits, Option.map_some', h3] at hdec
  refine ⟨_, _, hout, hdec, rfl, rfl, ?_⟩
  show copy bits f.bits = f.bits
  unfold copy
  rw [hl, List.take_length, List.drop_eq_nil_of_le (Nat.le_of_eq hl), List.append_nil]

/-- C2 at a filter of size 20 with three rounds, decoded into the zero value. -/
theorem UnmarshalBinary_MarshalBinary_witness :
    ∃ out r', MarshalBinary { size := 20, bits := [72, 2, 0], hash := 3, mutex := true }
        = some ({ size := 20, bits := [72, 2, 0], hash := 3, mutex := true }, out, none) ∧
      UnmarshalBinary Bloom.zeroValue out = some (r', none) ∧
      r'.size = 20 ∧ r'.hash = 3 ∧ r'.bits = [72, 2, 0] :=
  UnmarshalBinary_MarshalBinary { size := 20, bits := [72, 2, 0], hash := 3, mutex := true }
    Bloom.zeroValue (by decide) rfl (by norm_num) (by norm_num) (by decide)

/-- C5, as the code has it.  The decoder of the wire format: a buffer shorter
than 18 bytes gives the incorrect-length error; a buffer of at least 18 bytes
whose first byte is not 1 gives the unexpected-version error; every other
buffer is accepted when the receiver's buffer already has the `size/8 + 1`
bytes of the size in the header or that many bytes are within the allocation
limit; whenever an error is returned the receiver is what it was; and a buffer
that passes both guards with a size for which the receiver's buffer has to be
allocated anew, above the allocation limit, makes the call panic. -/
theorem UnmarshalBinary_cases (r : Bloom) (data : List Nat) :
    (data.length < 18 →
      UnmarshalBinary r data = some (r, some (Err.incorrectLength data.length))) ∧
    (∀ v, 18 ≤ data.length → data[0]? = some v → v ≠ 1 →
      UnmarshalBinary r data = some (r, some (Err.unexpectedVersion v))) ∧
    (∀ size, 18 ≤ data.length → data[0]? = some 1 →
      (slice data 1 9).bind Uint64 = some size →
      r.bits.length = size / 8 + 1 ∨ size / 8 + 1 ≤ maxAlloc →
      ∃ r', UnmarshalBinary r data = some (r', none)) ∧
    (∀ r' e, UnmarshalBinary r data = some (r', some e) → r' = r) ∧
    (∀ size, 18 ≤ data.length → data[0]? = some 1 →
      (slice data 1 9).bind Uint64 = some size →
      r.bits.length ≠ size / 8 + 1 → maxAlloc < size / 8 + 1 →
      UnmarshalBinary r data = none) := by
  refine ⟨UnmarshalBinary_short r data, UnmarshalBinary_version r data, ?_,
    fun r' e h => UnmarshalBinary_error r r' data e h, ?_⟩
  · intro size hlen hv hsize hbuf
    obtain ⟨size', hash, e1, e2⟩ := UnmarshalBinary_header data hlen
    rw [hsize] at e1
    cases e1
    rw [UnmarshalBinary_eq r data size hash hlen hv hsize e2]
    by_cases hne : r.bits.length ≠ size / 8 + 1
    · rcases hbuf with h | h
      · exact absurd h hne
      · rw [if_pos hne, make_of_le _ h]
        exact ⟨_, rfl⟩
    · rw [if_neg hne]
      exact ⟨_, rfl⟩
  · intro size hlen hv hsize hne hbig
    obtain ⟨size', hash, e1, e2⟩ := UnmarshalBinary_header data hlen
    rw [hsize] at e1
    cases e1
    rw [UnmarshalBinary_eq r data size hash hlen hv hsize e2, if_pos hne, make_of_gt _ hbig]
    rfl

/-- C5 at the two buffers of the specification, ten bytes and eighteen bytes
of which the first is 2, and at eighteen bytes that start with 1, all decoded
into the zero value. -/
theorem UnmarshalBinary_cases_witness :
    UnmarshalBinary Bloom.zeroValue (List.replicate 10 0)
      = some (Bloom.zeroValue, some (Err.incorrectLength 10)) ∧
    UnmarshalBinary Bloom.zeroValue (2 :: List.replicate 17 0)
      = some (Bloom.zeroValue, some (Err.unexpectedVersion 2)) ∧
    ∃ r', UnmarshalBinary Bloom.zeroValue (1 :: List.replicate 17 0) = some (r', none) :=
  ⟨(UnmarshalBinary_cases Bloom.zeroValue (List.replicate 10 0)).1 (by decide),
   (UnmarshalBinary_cases Bloom.zeroValue (2 :: List.replicate 17 0)).2.1 2 (by decide) rfl
     (by decide),
   (UnmarshalBinary_cases Bloom.zeroValue (1 :: List.replicate 17 0)).2.2.1 0 (by decide) rfl
     (by decide) (Or.inr (by decide))⟩

/-- C5 fails on a header whose size needs a buffer above the allocation limit:
the 18 bytes `01`, eight times `FF`, nine times `00` pass both guards, the size
is `2 ^ 64 - 1`, and on the zero value `make([]uint8, 2 ^ 61)` panics. -/
theorem UnmarshalBinary_panics_on_large_size :
    UnmarshalBinary Bloom.zeroValue
      [1, 255, 255, 255, 255, 255, 255, 255, 255, 0, 0, 0, 0, 0, 0, 0, 0, 0] = none := by
  decide

/-- C6, as the code has it: for every filter whose lock is allocated and whose
encoding of `17 + len(bits)` bytes is within the allocation limit,
`MarshalBinary` returns a nil error, leaves the filter as it was, and returns
`17 + len(bits)` bytes: the version byte 1, the big-endian encoding of the size
in bytes 1 to 8, that of the hash-round count in bytes 9 to 16, and then the
bit buffer. -/
theorem MarshalBinary_layout (f : Bloom) (hlock : f.mutex = true)
    (halloc : f.bits.length + 17 ≤ maxAlloc) :
    ∃ out, MarshalBinary f = some (f, out, none) ∧ out.length = 17 + f.bits.length ∧
      out[0]? = some 1 ∧ (out.take 9).drop 1 = bigEndian8 f.size ∧
      (out.take 17).drop 9 = bigEndian8 f.hash ∧ out.drop 17 = f.bits := by
  refine ⟨_, MarshalBinary_eq f hlock halloc, ?_, rfl, ?_, ?_, ?_⟩
  · simp [PutUint64]; omega
  · rw [← PutUint64_eq_bigEndian8]; simp [PutUint64]
  · rw [← PutUint64_eq_bigEndian8]; simp [PutUint64]
  · simp [PutUint64]

/-- C6 at a filter of size 20 with three rounds. -/
theorem MarshalBinary_layout_witness :
    ∃ out, MarshalBinary { size := 20, bits := [72, 2, 0], hash := 3, mutex := true }
        = some ({ size := 20, bits := [72, 2, 0], hash := 3, mutex := true }, out, none) ∧
      out.length = 17 + 3 ∧ out[0]? = some 1 ∧ (out.take 9).drop 1 = bigEndian8 20 ∧
      (out.take 17).drop 9 = bigEndian8 3 ∧ out.drop 17 = [72, 2, 0] :=
  MarshalBinary_layout { size := 20, bits := [72, 2, 0], hash := 3, mutex := true } rfl
    (by decide)

/-- C6 fails on the zero value `Bloom{}`: its lock is a nil pointer, and
`MarshalBinary` panics on `r.mutex.RLock()` instead of returning bytes. -/
theorem MarshalBinary_zeroValue_panics : MarshalBinary Bloom.zeroValue = none := rfl

/-! ## Parameters after each call -/

theorem InitByParameters_post (size k : Nat) (f : Bloom) (e : Option Err)
    (h : InitByParameters size k = some (some f, e)) :
    0 < size ∧ 0 < k ∧ size / 8 + 1 ≤ maxAlloc ∧ e = none ∧
      f = { size := size, hash := k, bits := zeros (size / 8 + 1), mutex := true } := by
  unfold InitByParameters at h
  by_cases hs : size ≤ 0
  · rw [if_pos hs] at h; simp at h
  · rw [if_neg hs] at h
    by_cases hk : k ≤ 0
    · rw [if_pos hk] at h; simp at h
    · rw [if_neg hk, Option.map_eq_some'] at h
      obtain ⟨bits, hb, hf⟩ := h
      obtain ⟨hz, hle⟩ := make_eq_some _ _ hb
      simp only [Prod.mk.injEq, Option.some.injEq] at hf
      subst hz
      exact ⟨by omega, by omega, hle, hf.2.symm, hf.1.symm⟩

theorem Init_post (fl : Float64Ops) (elements : Int) (falsePositive : fl.F) (f : Bloom)
    (e : Option Err) (h : Init fl elements falsePositive = some (some f, e)) :
    f.bits = zeros (f.size / 8 + 1) ∧ f.mutex = true ∧ f.size / 8 + 1 ≤ maxAlloc ∧ e = none := by
  unfold Init at h
  split at h
  · simp at h
  · split at h
    · simp at h
    · rw [Option.map_eq_some'] at h
      obtain ⟨bits, hb, hf⟩ := h
      obtain ⟨hz, hle⟩ := make_eq_some _ _ hb
      simp only [Prod.mk.injEq, Option.some.injEq] at hf
      subst hz
      rw [← hf.1]
      exact ⟨rfl, rfl, hle, hf.2.symm⟩

theorem Reset_post (r r' : Bloom) (h : Reset r = some r') :
    r' = { r with bits := zeros (r.size / 8 + 1) } ∧ r.mutex = true ∧
      r.size / 8 + 1 ≤ maxAlloc := by
  unfold Reset at h
  cases hm : r.mutex with
  | false => simp [hm] at h
  | true =>
    simp only [hm, if_true, Option.map_eq_some'] at h
    obtain ⟨bits, hb, hr⟩ := h
    obtain ⟨hz, hle⟩ := make_eq_some _ _ hb
    subst hz
    exact ⟨hr.symm, rfl, hle⟩

theorem UnmarshalBinary_post (r f : Bloom) (data : List Nat)
    (h : UnmarshalBinary r data = some (f, none)) :
    (slice data 1 9).bind Uint64 = some f.size ∧ (slice data 9 17).bind Uint64 = some f.hash ∧
      f.mutex = true := by
  obtain ⟨_, _, size, hash, bits, e1, e2, _, hf⟩ := UnmarshalBinary_ok r f data h
  subst hf
  exact ⟨e1, e2, rfl⟩

theorem UnmarshalStorage_short (r : Bloom) (data : List Nat) (hash : Nat)
    (h : data.length < 18) :
    UnmarshalStorage r data hash = some (r, some (Err.incorrectLength data.length)) := by
  unfold UnmarshalStorage
  rw [if_pos h]

/-- Past its guard the storage decoder returns a nil error unless the
allocation of a buffer or the slice `r.bits[1:]` panics. -/
theorem UnmarshalStorage_long (r : Bloom) (data : List Nat) (hash : Nat)
    (hlen : 18 ≤ data.length) :
    UnmarshalStorage r data hash =
      ((if r.bits.length ≠ storageSize r.bits.length / 8 + 1
          then make (storageSize r.bits.length / 8 + 1) else some r.bits).bind
        fun b => copyAt b 1 data).map
        fun bits =>
          ({ size := storageSize r.bits.length, hash := hash, bits := bits, mutex := true },
            none) := by
  have hnot : ¬ data.length < 17 + 1 := by omega
  unfold UnmarshalStorage storageSize
  rw [if_neg hnot]
  simp only [Option.bind_eq_bind, Option.pure_def]
  by_cases hne : r.bits.length
      ≠ ((((r.bits.length : Int) - 1) * 8) % (2 : Int) ^ 64).toNat / 8 + 1
  · simp only [if_pos hne]
    cases make (((((r.bits.length : Int) - 1) * 8) % (2 : Int) ^ 64).toNat / 8 + 1) with
    | none => rfl
    | some b =>
      simp only [Option.some_bind]
      cases copyAt b 1 data <;> rfl
  · simp only [if_neg hne, Option.some_bind]
    cases copyAt r.bits 1 data <;> rfl

theorem UnmarshalStorage_post (r f : Bloom) (data : List Nat) (hash : Nat)
    (h : UnmarshalStorage r data hash = some (f, none)) :
    f.hash = hash ∧ f.size = ((((r.bits.length : Int) - 1) * 8) % (2 : Int) ^ 64).toNat ∧
      f.mutex = true := by
  rcases Nat.lt_or_ge data.length 18 with hl | hl
  · rw [UnmarshalStorage_short r data hash hl] at h
    simp at h
  · rw [UnmarshalStorage_long r data hash hl, Option.map_eq_some'] at h
    obtain ⟨bits, _, hf⟩ := h
    simp only [Prod.mk.injEq, and_true] at hf
    subst hf
    exact ⟨rfl, rfl, rfl⟩

theorem UnmarshalStorage_error (r r' : Bloom) (data : List Nat) (hash : Nat) (e : Err)
    (h : UnmarshalStorage r data hash = some (r', some e)) : data.length < 18 ∧ r' = r := by
  rcases Nat.lt_or_ge data.length 18 with hl | hl
  · rw [UnmarshalStorage_short r data hash hl] at h
    simp only [Option.some.injEq, Prod.mk.injEq] at h
    exact ⟨hl, h.1.symm⟩
  · rw [UnmarshalStorage_long r data hash hl, Option.map_eq_some'] at h
    obtain ⟨bits, _, hf⟩ := h
    simp at hf

/-- In every filter the package produces the lock is allocated, the untouched
zero value apart: a nil lock goes with an empty buffer, size 0 and hash 0. -/
theorem Produced_lock (H : Hasher) (f : Bloom) (h : Produced H f) :
    f.mutex = true ∨ f = Bloom.zeroValue := by
  induction h with
  | zeroValue => exact Or.inr rfl
  | init fl elements falsePositive f e hf =>
    exact Or.inl (Init_post fl elements falsePositive f e hf).2.1
  | initByParameters size k f e hf =>
    obtain ⟨_, _, _, _, h5⟩ := InitByParameters_post size k f e hf
    left
    rw [h5]
  | add f f' data _ hf _ => exact Or.inl (Add_post H f f' data hf).2.2.1
  | reset f f' _ hf _ =>
    obtain ⟨h1, h2, _⟩ := Reset_post f f' hf
    left
    rw [h1]
    exact h2
  | merge f f' m m' e _ hf ih =>
    cases e with
    | none => exact Or.inl (Merge_post f m f' m' hf).2.2.1
    | some e =>
      rw [(Merge_error f m f' m' e hf).2.1]
      exact ih
  | unmarshalBinary f f' data e _ hf ih =>
    cases e with
    | none => exact Or.inl (UnmarshalBinary_post f f' data hf).2.2
    | some e =>
      rw [UnmarshalBinary_error f f' data e hf]
      exact ih
  | unmarshalStorage f f' data hash e _ hf ih =>
    cases e with
    | none => exact Or.inl (UnmarshalStorage_post f f' data hash hf).2.2
    | some e =>
      rw [(UnmarshalStorage_error f f' data hash e hf).2]
      exact ih

/-- A produced filter with a non-empty buffer or a non-zero size has its lock
allocated. -/
theorem Produced_lock_of_ne (H : Hasher) (f : Bloom) (h : Produced H f)
    (hne : f.bits ≠ [] ∨ f.size ≠ 0) : f.mutex = true := by
  rcases Produced_lock H f h with hl | hz
  · exact hl
  · subst hz
    rcases hne with h1 | h1
    · exact absurd rfl h1
    · exact absurd rfl h1

/-- C7, as the code has it: a filter that comes from `InitByParameters`, from
an `UnmarshalBinary` whose header carries a non-zero size and a non-zero
hash-round count, or from an `UnmarshalStorage` with a non-zero hash argument on
a receiver whose buffer length is not 1, and is then changed by any sequence of
`Add`, `Reset`, successful `Merge` and such decodings, has `size > 0` and
`hash > 0`. -/
theorem Reach_positive (H : Hasher) (f : Bloom) (h : Reach H f) : 0 < f.size ∧ 0 < f.hash := by
  induction h with
  | init size k f hf =>
    obtain ⟨h1, h2, _, _, h5⟩ := InitByParameters_post size k f none hf
    subst h5
    exact ⟨h1, h2⟩
  | unmarshalBinary r f data hf hs hk =>
    obtain ⟨h1, h2, _⟩ := UnmarshalBinary_post r f data hf
    constructor
    · apply Nat.pos_of_ne_zero
      intro h0
      rw [h0] at h1
      exact hs h1
    · apply Nat.pos_of_ne_zero
      intro h0
      rw [h0] at h2
      exact hk h2
  | unmarshalStorage r f data hash hf hk h1 h2 =>
    obtain ⟨e1, e2, _⟩ := UnmarshalStorage_post r f data hash hf
    refine ⟨?_, by rw [e1]; exact hk⟩
    rw [e2]
    have h2' : r.bits.length ≤ 2305843009213693952 := by
      have : (2 : Nat) ^ 61 = 2305843009213693952 := by norm_num
      omega
    have hp : (2 : Int) ^ 64 = 18446744073709551616 := by norm_num
    rw [hp]
    omega
  | add f f' data _ hf ih =>
    obtain ⟨h1, h2, _⟩ := Add_post H f f' data hf
    rw [h1, h2]; exact ih
  | reset f f' _ hf ih =>
    obtain ⟨h1, _, _⟩ := Reset_post f f' hf
    subst h1
    exact ih
  | merge f f' m m' _ hf ih =>
    obtain ⟨h1, h2, _⟩ := Merge_post f m f' m' hf
    rw [h1, h2]; exact ih

/-- C7 at the filter `InitByParameters(20, 3)` after `Add([1, 2])` and `Reset`. -/
theorem Reach_positive_witness :
    Reach sumHasher { size := 20, bits := [0, 0, 0], hash := 3, mutex := true } ∧
      0 < (20 : Nat) ∧ 0 < (3 : Nat) :=
  have hr : Reach sumHasher { size := 20, bits := [0, 0, 0], hash := 3, mutex := true } :=
    Reach.reset { size := 20, bits := [72, 2, 0], hash := 3, mutex := true } _
      (Reach.add { size := 20, bits := [0, 0, 0], hash := 3, mutex := true } _ [1, 2]
        (Reach.init 20 3 _ (by decide)) (by decide))
      (by decide)
  ⟨hr, Reach_positive sumHasher _ hr⟩

/-- C7 fails for decoding: `UnmarshalBinary` accepts the 18-byte buffer made of
the version byte 1 and seventeen zero bytes and leaves the receiver (here the
zero value) with `size = 0` and `hash = 0`. -/
theorem UnmarshalBinary_accepts_zero_parameters :
    UnmarshalBinary Bloom.zeroValue (1 :: List.replicate 17 0)
      = some ({ size := 0, bits := [0], hash := 0, mutex := true }, none) := by
  decide

/-- A second way to parameters that are not positive: `UnmarshalStorage` takes
the hash-round count from its caller and the size from the buffer length, so on
a filter of size 4 (a one-byte buffer) with argument 0 it leaves `size = 0` and
`hash = 0`. -/
theorem UnmarshalStorage_accepts_zero_parameters :
    UnmarshalStorage { size := 4, bits := [0], hash := 2, mutex := true } (List.replicate 18 7) 0
      = some ({ size := 0, bits := [0], hash := 0, mutex := true }, none) := by
  decide

/-! ## Reset -/

theorem Test_loop_zeros (getRound : Nat → Nat) (size : Nat) (hs : size ≠ 0) (n i : Nat) :
    Test.loop getRound size (zeros (size / 8 + 1)) (n + 1) i = some false := by
  have hidx : getRound i % size / 8 < size / 8 + 1 :=
    Nat.lt_succ_of_le
      (Nat.div_le_div_right (Nat.le_of_lt (Nat.mod_lt _ (Nat.pos_of_ne_zero hs))))
  rw [Test.loop]
  simp [hs, zeros_getElem? _ _ hidx]

/-- C8. Reset clears membership and nothing else: on a filter with `size > 0`,
`hash > 0`, an allocated lock and a buffer length `size/8 + 1` within the
allocation limit, `Reset` returns and leaves the size and the hash-round count
as they were and a buffer of `size/8 + 1` zero bytes, on which `Test(d)` returns
false for every `d`. -/
theorem Reset_clears (H : Hasher) (f : Bloom) (hsize : 0 < f.size) (hhash : 0 < f.hash)
    (hlock : f.mutex = true) (halloc : f.size / 8 + 1 ≤ maxAlloc) :
    ∃ g, Reset f = some g ∧ g.size = f.size ∧ g.hash = f.hash ∧
      g.bits.length = f.size / 8 + 1 ∧ (∀ b ∈ g.bits, b = 0) ∧
      ∀ d : List Nat, Test H g d = some false := by
  refine ⟨{ f with bits := zeros (f.size / 8 + 1) },
    by simp [Reset, hlock, make_of_le _ halloc], rfl, rfl, zeros_length _, ?_, ?_⟩
  · intro b hb
    exact zeros_mem _ b hb
  · intro d
    obtain ⟨n, hn⟩ := Nat.exists_eq_succ_of_ne_zero (Nat.pos_iff_ne_zero.1 hhash)
    simp only [Test, hlock, if_true, hn]
    exact Test_loop_zeros _ _ (Nat.pos_iff_ne_zero.1 hsize) n 0

/-- C8 at a filter of size 20 with three rounds that holds `[1, 2]`. -/
theorem Reset_clears_witness :
    ∃ g, Reset { size := 20, bits := [72, 2, 0], hash := 3, mutex := true } = some g ∧
      g.size = 20 ∧ g.hash = 3 ∧ g.bits.length = 20 / 8 + 1 ∧ (∀ b ∈ g.bits, b = 0) ∧
      ∀ d : List Nat, Test sumHasher g d = some false :=
  Reset_clears sumHasher { size := 20, bits := [72, 2, 0], hash := 3, mutex := true }
    (by decide) (by decide) rfl (by decide)

/-! ## Add twice -/

/-- C9. Add is idempotent: for a filter with `len(bits) = size/8 + 1`, `Add(d)`
followed by `Add(d)` ends as a single `Add(d)` does, in the same state (a call
that panics, on a nil lock or on `size = 0` with `hash > 0`, panics in both);
and with an allocated lock and `size > 0` or `hash = 0` the call does return. -/
theorem Add_idempotent (H : Hasher) (f : Bloom) (d : List Nat) (hvalid : Valid f) :
    ((Add H f d).bind fun g => Add H g d) = Add H f d ∧
      (f.mutex = true → 0 < f.size ∨ f.hash = 0 → ∃ g, Add H f d = some g) := by
  constructor
  · cases hadd : Add H f d with
    | none => rfl
    | some g =>
      obtain ⟨h1, h2, h3, _, _, h6⟩ := Add_post H f g d hadd
      rw [Option.some_bind]
      have hfix : Add.loop (H.getRound (H.generateMultiHash d)) g.size g.hash 0 g.bits
          = some g.bits := by
        apply Add_loop_fixed
        intro k hk
        rw [h1, Nat.zero_add]
        exact h6 k (h2 ▸ hk)
      unfold Add
      simp only [h3, if_true]
      rw [hfix, Option.map_some', ← h3]
  · intro hlock hpos
    rcases hpos with hpos | hpos
    · exact Add_total H f d (Nat.pos_iff_ne_zero.1 hpos)
        (by rw [hvalid]; exact Nat.lt_succ_self _) hlock
    · refine ⟨f, ?_⟩
      unfold Add
      simp only [hlock, if_true, hpos, Add.loop]
      rw [Option.map_some', ← hlock, ← hpos]

/-- C9 at the filter `InitByParameters(20, 3)` returns and the datum `[1, 2]`. -/
theorem Add_idempotent_witness :
    ((Add sumHasher { size := 20, bits := [0, 0, 0], hash := 3, mutex := true } [1, 2]).bind
        fun g => Add sumHasher g [1, 2])
      = Add sumHasher { size := 20, bits := [0, 0, 0], hash := 3, mutex := true } [1, 2] ∧
    Add sumHasher { size := 20, bits := [0, 0, 0], hash := 3, mutex := true } [1, 2]
      = some { size := 20, bits := [72, 2, 0], hash := 3, mutex := true } :=
  ⟨(Add_idempotent sumHasher { size := 20, bits := [0, 0, 0], hash := 3, mutex := true } [1, 2]
      (by decide)).1, by decide⟩

/-! ## InitByParameters -/

/-- C10, as the code has it: `InitByParameters(size, hashFunctions)` returns no
filter and `errElements`, the very error `Init` returns for `elements <= 0`, when
`size = 0`; no filter and `errHash` when `size > 0` and `hashFunctions = 0`; and
otherwise, when the `size/8 + 1` bytes of the buffer are within the allocation
limit, a nil error and a filter with the size and the hash-round count of the
arguments and a buffer of zero bytes; above the limit the call panics.
`errElements` and `errHash` differ. -/
theorem InitByParameters_cases (size hashFunctions : Nat) :
    (size = 0 → InitByParameters size hashFunctions = some (none, some Err.errElements)) ∧
    (0 < size → hashFunctions = 0 →
      InitByParameters size hashFunctions = some (none, some Err.errHash)) ∧
    (0 < size → 0 < hashFunctions → size / 8 + 1 ≤ maxAlloc →
      ∃ f, InitByParameters size hashFunctions = some (some f, none) ∧ f.size = size ∧
        f.hash = hashFunctions ∧ ∀ b ∈ f.bits, b = 0) ∧
    (∀ (fl : Float64Ops) (elements : Int) (falsePositive : fl.F), elements ≤ 0 →
      Init fl elements falsePositive = some (none, some Err.errElements)) ∧
    Err.errElements ≠ Err.errHash ∧
    (0 < size → 0 < hashFunctions → maxAlloc < size / 8 + 1 →
      InitByParameters size hashFunctions = none) := by
  refine ⟨?_, ?_, ?_, ?_, by decide, ?_⟩
  · intro h
    simp [InitByParameters, h]
  · intro h1 h2
    have : ¬ size ≤ 0 := by omega
    simp [InitByParameters, this, h2]
  · intro h1 h2 h3
    have h1' : ¬ size ≤ 0 := by omega
    have h2' : ¬ hashFunctions ≤ 0 := by omega
    refine ⟨{ size := size, hash := hashFunctions, bits := zeros (size / 8 + 1), mutex := true },
      by simp only [InitByParameters, if_neg h1', if_neg h2', make_of_le _ h3, Option.map_some'],
      rfl, rfl, ?_⟩
    intro b hb
    exact zeros_mem _ b hb
  · intro fl elements falsePositive h
    simp [Init, h]
  · intro h1 h2 h3
    have h1' : ¬ size ≤ 0 := by omega
    have h2' : ¬ hashFunctions ≤ 0 := by omega
    simp only [InitByParameters, if_neg h1', if_neg h2', make_of_gt _ h3, Option.map_none']

/-- C10 at the arguments `(0, 3)`, `(20, 0)` and `(20, 3)`. -/
theorem InitByParameters_cases_witness :
    InitByParameters 0 3 = some (none, some Err.errElements) ∧
    InitByParameters 20 0 = some (none, some Err.errHash) ∧
    ∃ f, InitByParameters 20 3 = some (some f, none) ∧ f.size = 20 ∧ f.hash = 3 ∧
      ∀ b ∈ f.bits, b = 0 :=
  ⟨(InitByParameters_cases 0 3).1 rfl, (InitByParameters_cases 20 0).2.1 (by decide) rfl,
   (InitByParameters_cases 20 3).2.2.1 (by decide) (by decide) (by decide)⟩

/-- C10 fails in two places.  The error `InitByParameters` returns for
`size = 0` is not distinct from the error `Init` returns for `elements <= 0`:
both are the one variable `errElements`.  And with `size > 0` and
`hashFunctions > 0` the call need not return: for `size = 2 ^ 63` the
`2 ^ 60 + 1` bytes of the buffer are above the allocation limit and `make`
panics. -/
theorem InitByParameters_size_error_eq_Init_elements_error :
    InitByParameters 0 3 = Init binary64 0 (binary64.ofInt 0) ∧
      InitByParameters 0 3 = some (none, some Err.errElements) ∧
      InitByParameters (2 ^ 63) 1 = none := by
  refine ⟨rfl, rfl, ?_⟩
  decide

/-! ## The builtin copy -/

theorem copy_length (dst src : List Nat) : (copy dst src).length = dst.length := by
  simp only [copy, List.length_append, List.length_take, List.length_drop]
  omega

theorem copy_getElem?_lt (dst src : List Nat) (j : Nat) (h1 : j < dst.length)
    (h2 : j < src.length) : (copy dst src)[j]? = src[j]? := by
  unfold copy
  rw [List.getElem?_append_left (by simp; omega), List.getElem?_take_of_lt h1]

theorem copy_getElem?_ge (dst src : List Nat) (j : Nat) (h : src.length ≤ j) :
    (copy dst src)[j]? = dst[j]? := by
  unfold copy
  rcases Nat.lt_or_ge dst.length src.length with hlt | hge
  · rw [List.getElem?_eq_none (by simp; omega), List.getElem?_eq_none (by omega)]
  · rw [List.take_of_length_le hge, List.getElem?_append_right h, List.getElem?_drop]
    congr 1
    omega

theorem copy_of_le (dst src : List Nat) (h : dst.length ≤ src.length) :
    copy dst src = src.take dst.length := by
  unfold copy
  rw [List.drop_eq_nil_of_le h, List.append_nil]

/-! ## What the decoder of the wire format installs -/

/-- After a nil return of the decoder the receiver has the header fields and
a buffer of `size/8 + 1` bytes that starts with the payload; behind a payload
that ends earlier are the bytes of the buffer the copy went into. -/
theorem UnmarshalBinary_installs (r f : Bloom) (data : List Nat) (size hash : Nat)
    (h : UnmarshalBinary r data = some (f, none))
    (hsize : (slice data 1 9).bind Uint64 = some size)
    (hhash : (slice data 9 17).bind Uint64 = some hash) :
    f.size = size ∧ f.hash = hash ∧ f.bits.length = size / 8 + 1 ∧
      (∀ j, j < data.length - 17 → j < size / 8 + 1 → f.bits[j]? = data[17 + j]?) ∧
      (∀ j, data.length - 17 ≤ j →
        f.bits[j]? =
          (if r.bits.length ≠ size / 8 + 1 then zeros (size / 8 + 1) else r.bits)[j]?) ∧
      (size / 8 + 1 ≤ data.length - 17 → f.bits = (data.drop 17).take (size / 8 + 1)) := by
  obtain ⟨hlen, _, size', hash', bits, e1, e2, hb, hf⟩ := UnmarshalBinary_ok r f data h
  rw [hsize] at e1
  rw [hhash] at e2
  cases e1
  cases e2
  have hB : bits.length = size / 8 + 1 := decode_buffer_length r size bits hb
  have hbits : bits = if r.bits.length ≠ size / 8 + 1 then zeros (size / 8 + 1) else r.bits := by
    split at hb
    · rename_i hne
      rw [if_pos hne]
      exact (make_eq_some _ _ hb).1
    · rename_i hne
      rw [if_neg hne]
      exact (Option.some.inj hb).symm
  subst hf
  refine ⟨rfl, rfl, ?_, ?_, ?_, ?_⟩
  · show (copy _ _).length = _
    rw [copy_length, hB]
  · intro j h1 h2
    show (copy _ _)[j]? = _
    rw [copy_getElem?_lt _ _ _ (by rw [hB]; exact h2) (by simp; omega), List.getElem?_drop]
  · intro j h1
    show (copy _ _)[j]? = _
    rw [copy_getElem?_ge _ _ _ (by simp; omega), hbits]
  · intro h
    show copy _ _ = _
    rw [copy_of_le _ _ (by rw [hB]; simp; omega), hB]

/-- C11, as the code has it: when `UnmarshalBinary` accepts a buffer `data` on
two receivers `r1` and `r2`, both end with the size and the hash-round count
read from the header and a bit buffer of `size/8 + 1` bytes that starts with
the payload `data[17:]` (cut to `size/8 + 1` bytes).  Bytes after the end of a
payload shorter than `size/8 + 1` are those of the buffer the copy went into:
zero when the receiver's buffer was re-allocated, the receiver's previous bytes
when its length already was `size/8 + 1`.  With a payload of at least
`size/8 + 1` bytes the two buffers are the same. -/
theorem UnmarshalBinary_replaces (data : List Nat) (r1 r2 f1 f2 : Bloom)
    (h1 : UnmarshalBinary r1 data = some (f1, none))
    (h2 : UnmarshalBinary r2 data = some (f2, none)) :
    ∃ size hash, (slice data 1 9).bind Uint64 = some size ∧
      (slice data 9 17).bind Uint64 = some hash ∧
      f1.size = size ∧ f2.size = size ∧ f1.hash = hash ∧ f2.hash = hash ∧
      f1.bits.length = size / 8 + 1 ∧ f2.bits.length = size / 8 + 1 ∧
      (∀ j, j < data.length - 17 → j < size / 8 + 1 →
        f1.bits[j]? = data[17 + j]? ∧ f2.bits[j]? = data[17 + j]?) ∧
      (∀ j, data.length - 17 ≤ j →
        f1.bits[j]? =
            (if r1.bits.length ≠ size / 8 + 1 then zeros (size / 8 + 1) else r1.bits)[j]? ∧
          f2.bits[j]? =
            (if r2.bits.length ≠ size / 8 + 1 then zeros (size / 8 + 1) else r2.bits)[j]?) ∧
      (size / 8 + 1 ≤ data.length - 17 →
        f1.bits = (data.drop 17).take (size / 8 + 1) ∧ f2.bits = f1.bits) := by
  obtain ⟨hlen, _, size, hash, _, e1, e2, _, _⟩ := UnmarshalBinary_ok r1 f1 data h1
  obtain ⟨a1, a2, a3, a4, a5, a6⟩ := UnmarshalBinary_installs r1 f1 data size hash h1 e1 e2
  obtain ⟨b1, b2, b3, b4, b5, b6⟩ := UnmarshalBinary_installs r2 f2 data size hash h2 e1 e2
  exact ⟨size, hash, e1, e2, a1, b1, a2, b2, a3, b3, fun j hj hj' => ⟨a4 j hj hj', b4 j hj hj'⟩,
    fun j hj => ⟨a5 j hj, b5 j hj⟩, fun h => ⟨a6 h, (b6 h).trans (a6 h).symm⟩⟩

/-- C11 at the buffer `01`, size 16, hash 1 and the three payload bytes 5, 6, 7,
decoded into a filter that held `[9, 9, 9]` and into the zero value. -/
theorem UnmarshalBinary_replaces_witness :
    ∃ size hash,
      (slice [1, 0, 0, 0, 0, 0, 0, 0, 16, 0, 0, 0, 0, 0, 0, 0, 1, 5, 6, 7] 1 9).bind Uint64
        = some size ∧
      (slice [1, 0, 0, 0, 0, 0, 0, 0, 16, 0, 0, 0, 0, 0, 0, 0, 1, 5, 6, 7] 9 17).bind Uint64
        = some hash ∧
      (16 : Nat) = size ∧ (16 : Nat) = size ∧ (1 : Nat) = hash ∧ (1 : Nat) = hash ∧
      [5, 6, 7].length = size / 8 + 1 ∧ [5, 6, 7].length = size / 8 + 1 ∧
      (∀ j, j < [1, 0, 0, 0, 0, 0, 0, 0, 16, 0, 0, 0, 0, 0, 0, 0, 1, 5, 6, 7].length - 17 →
        j < size / 8 + 1 →
        [5, 6, 7][j]? = [1, 0, 0, 0, 0, 0, 0, 0, 16, 0, 0, 0, 0, 0, 0, 0, 1, 5, 6, 7][17 + j]? ∧
        [5, 6, 7][j]? = [1, 0, 0, 0, 0, 0, 0, 0, 16, 0, 0, 0, 0, 0, 0, 0, 1, 5, 6, 7][17 + j]?) ∧
      (∀ j, [1, 0, 0, 0, 0, 0, 0, 0, 16, 0, 0, 0, 0, 0, 0, 0, 1, 5, 6, 7].length - 17 ≤ j →
        [5, 6, 7][j]? =
            (if [9, 9, 9].length ≠ size / 8 + 1 then zeros (size / 8 + 1) else [9, 9, 9])[j]? ∧
          [5, 6, 7][j]? =
            (if ([] : List Nat).length ≠ size / 8 + 1 then zeros (size / 8 + 1) else [])[j]?) ∧
      (size / 8 + 1 ≤ [1, 0, 0, 0, 0, 0, 0, 0, 16, 0, 0, 0, 0, 0, 0, 0, 1, 5, 6, 7].length - 17 →
        [5, 6, 7] = ([1, 0, 0, 0, 0, 0, 0, 0, 16, 0, 0, 0, 0, 0, 0, 0, 1, 5, 6, 7].drop 17).take
          (size / 8 + 1) ∧ [5, 6, 7] = [5, 6, 7]) :=
  UnmarshalBinary_replaces [1, 0, 0, 0, 0, 0, 0, 0, 16, 0, 0, 0, 0, 0, 0, 0, 1, 5, 6, 7]
    { size := 16, bits := [9, 9, 9], hash := 1, mutex := true } Bloom.zeroValue
    { size := 16, bits := [5, 6, 7], hash := 1, mutex := true }
    { size := 16, bits := [5, 6, 7], hash := 1, mutex := true } (by decide) (by decide)

/-- C11 fails when the payload is shorter than `size/8 + 1`: the 18-byte buffer
with size 16, hash 1 and the single payload byte 5 is accepted; a receiver of
size 16 that held `[9, 9, 9]` ends with `[5, 9, 9]`, the zero value with
`[5, 0, 0]`. -/
theorem UnmarshalBinary_keeps_receiver_bytes :
    UnmarshalBinary { size := 16, bits := [9, 9, 9], hash := 1, mutex := true }
        [1, 0, 0, 0, 0, 0, 0, 0, 16, 0, 0, 0, 0, 0, 0, 0, 1, 5]
      = some ({ size := 16, bits := [5, 9, 9], hash := 1, mutex := true }, none) ∧
    UnmarshalBinary Bloom.zeroValue [1, 0, 0, 0, 0, 0, 0, 0, 16, 0, 0, 0, 0, 0, 0, 0, 1, 5]
      = some ({ size := 16, bits := [5, 0, 0], hash := 1, mutex := true }, none) := by
  decide

/-! ## The storage format -/

theorem MarshalStorage_eq (f : Bloom) (hne : f.bits ≠ []) (hlock : f.mutex = true)
    (halloc : f.bits.length ≤ maxAlloc) :
    MarshalStorage f = some (f, f.bits.drop 1 ++ [0], none) := by
  have hpos : 1 ≤ f.bits.length := by
    cases hb : f.bits with
    | nil => exact absurd hb hne
    | cons x xs => simp
  have hs : slice f.bits 1 f.bits.length = some (f.bits.drop 1) := by
    rw [slice_of_le _ _ _ hpos (Nat.le_refl _), List.take_length]
  have hc : copy (zeros f.bits.length) (f.bits.drop 1) = f.bits.drop 1 ++ [0] := by
    unfold copy zeros
    rw [List.take_of_length_le (by simp), List.drop_replicate, List.length_drop]
    have : f.bits.length - (f.bits.length - 1) = 1 := by omega
    rw [this]
    rfl
  unfold MarshalStorage
  simp only [hlock, if_true, make_of_le _ halloc, hs, Option.bind_eq_bind, Option.some_bind,
    Option.pure_def, hc]

/-- C12, as the code has it: for a filter with a non-empty bit buffer (of a
length within the allocation limit, as every buffer has) and an allocated lock,
`MarshalStorage` returns a nil error, leaves the filter as it was and returns
`len(bits)` bytes: the bit buffer without its first byte, followed by one zero
byte. -/
theorem MarshalStorage_output (f : Bloom) (hne : f.bits ≠ []) (hlock : f.mutex = true)
    (halloc : f.bits.length ≤ maxAlloc) :
    ∃ out, MarshalStorage f = some (f, out, none) ∧ out = f.bits.drop 1 ++ [0] ∧
      out.length = f.bits.length := by
  refine ⟨_, MarshalStorage_eq f hne hlock halloc, rfl, ?_⟩
  cases hb : f.bits with
  | nil => exact absurd hb hne
  | cons x xs => simp

/-- C12 at a filter of size 20 whose buffer is `[1, 2, 3]`. -/
theorem MarshalStorage_output_witness :
    ∃ out, MarshalStorage { size := 20, bits := [1, 2, 3], hash := 3, mutex := true }
        = some ({ size := 20, bits := [1, 2, 3], hash := 3, mutex := true }, out, none) ∧
      out = [1, 2, 3].drop 1 ++ [0] ∧ out.length = [1, 2, 3].length :=
  MarshalStorage_output { size := 20, bits := [1, 2, 3], hash := 3, mutex := true }
    (by decide) rfl (by decide)

/-- C12 fails on the length: for the buffer `[1, 2, 3]` the call returns the
three bytes `[2, 3, 0]`, not the two bytes `[2, 3]`. -/
theorem MarshalStorage_has_buffer_length :
    MarshalStorage { size := 20, bits := [1, 2, 3], hash := 3, mutex := true }
      = some ({ size := 20, bits := [1, 2, 3], hash := 3, mutex := true }, [2, 3, 0], none) := by
  decide

theorem storageSize_of_pos (len : Nat) (h1 : 1 ≤ len) (h2 : len ≤ 2 ^ 61) :
    storageSize len = (len - 1) * 8 := by
  unfold storageSize
  have h2' : len ≤ 2305843009213693952 := by
    have : (2 : Nat) ^ 61 = 2305843009213693952 := by norm_num
    omega
  have hp : (2 : Int) ^ 64 = 18446744073709551616 := by norm_num
  rw [hp]
  omega

theorem storageSize_zero : storageSize 0 = 2 ^ 64 - 8 := by
  unfold storageSize
  norm_num
  rfl

/-- On a receiver with a non-empty buffer (of at most `2 ^ 61` bytes) and at
least 18 bytes of data the storage decoder keeps the buffer and its first byte
and copies the data behind it. -/
theorem UnmarshalStorage_eq (r : Bloom) (data : List Nat) (hash : Nat) (hlen : 18 ≤ data.length)
    (h1 : 1 ≤ r.bits.length) (h2 : r.bits.length ≤ 2 ^ 61) :
    UnmarshalStorage r data hash = some
      ({ size := (r.bits.length - 1) * 8, hash := hash,
         bits := r.bits.take 1 ++ copy (r.bits.drop 1) data, mutex := true }, none) := by
  have hs : storageSize r.bits.length = (r.bits.length - 1) * 8 := storageSize_of_pos _ h1 h2
  have hkeep : ¬ r.bits.length ≠ (r.bits.length - 1) * 8 / 8 + 1 := by
    rw [Nat.mul_div_cancel _ (by decide : 0 < 8)]
    omega
  rw [UnmarshalStorage_long r data hash hlen, hs, if_neg hkeep]
  simp only [Option.some_bind, copyAt, if_pos h1, Option.map_some']

/-- C13. The storage decoder on a receiver with a non-empty buffer (of at most
`2 ^ 61` bytes, so that `(len - 1) * 8` is a `uint64`): an error is returned
exactly when the data has fewer than 18 bytes, and the receiver is then what it
was; otherwise the hash-round count is the argument, the size is
`(len(bits) - 1) * 8` for the buffer length before the call, the buffer keeps
its length and its first byte, byte `1 + i` is `data[i]` for every
`i < min(len(bits) - 1, len(data))`, and every other byte is what it was. -/
theorem UnmarshalStorage_postcondition (r : Bloom) (data : List Nat) (hash : Nat)
    (hne : 1 ≤ r.bits.length) (hmem : r.bits.length ≤ 2 ^ 61) :
    ((∃ r' e, UnmarshalStorage r data hash = some (r', some e)) ↔ data.length < 18) ∧
    (∀ r' e, UnmarshalStorage r data hash = some (r', some e) → r' = r) ∧
    (18 ≤ data.length →
      ∃ r', UnmarshalStorage r data hash = some (r', none) ∧ r'.hash = hash ∧
        r'.size = (r.bits.length - 1) * 8 ∧ r'.bits.length = r.bits.length ∧
        r'.bits[0]? = r.bits[0]? ∧
        (∀ i, i < min (r.bits.length - 1) data.length → r'.bits[1 + i]? = data[i]?) ∧
        (∀ j, 1 + min (r.bits.length - 1) data.length ≤ j → r'.bits[j]? = r.bits[j]?)) := by
  refine ⟨⟨?_, ?_⟩, fun r' e h => (UnmarshalStorage_error r r' data hash e h).2, ?_⟩
  · rintro ⟨r', e, h⟩
    exact (UnmarshalStorage_error r r' data hash e h).1
  · intro h
    exact ⟨r, _, UnmarshalStorage_short r data hash h⟩
  · intro hlen
    have htake : (r.bits.take 1).length = 1 := by
      rw [List.length_take]; omega
    refine ⟨_, UnmarshalStorage_eq r data hash hlen hne hmem, rfl, rfl, ?_, ?_, ?_, ?_⟩
    · show (r.bits.take 1 ++ copy (r.bits.drop 1) data).length = _
      rw [List.length_append, copy_length, htake, List.length_drop]
      omega
    · show (r.bits.take 1 ++ copy (r.bits.drop 1) data)[0]? = _
      rw [List.getElem?_append_left (by omega), List.getElem?_take_of_lt (by omega)]
    · intro i hi
      show (r.bits.take 1 ++ copy (r.bits.drop 1) data)[1 + i]? = _
      rw [List.getElem?_append_right (by omega), htake, Nat.add_sub_cancel_left,
        copy_getElem?_lt _ _ _ (by rw [List.length_drop]; omega) (by omega)]
    · intro j hj
      show (r.bits.take 1 ++ copy (r.bits.drop 1) data)[j]? = _
      rw [List.getElem?_append_right (by omega), htake]
      rcases Nat.lt_or_ge (j - 1) data.length with hlt | hge
      · rw [List.getElem?_eq_none (by rw [copy_length, List.length_drop]; omega),
          List.getElem?_eq_none (by omega)]
      · rw [copy_getElem?_ge _ _ _ hge, List.getElem?_drop]
        congr 1
        omega

/-- C13 at a receiver whose buffer is `[9, 8, 7]` and eighteen bytes of data. -/
theorem UnmarshalStorage_postcondition_witness :
    UnmarshalStorage { size := 20, bits := [9, 8, 7], hash := 3, mutex := true }
        [1, 2, 3, 4, 5, 6, 7, 8, 9, 10, 11, 12, 13, 14, 15, 16, 17, 18] 5
      = some ({ size := 16, bits := [9, 1, 2], hash := 5, mutex := true }, none) ∧
    ((∃ r' e, UnmarshalStorage { size := 20, bits := [9, 8, 7], hash := 3, mutex := true }
        [1, 2, 3] 5 = some (r', some e)) ↔ [1, 2, 3].length < 18) :=
  ⟨by decide,
   (UnmarshalStorage_postcondition { size := 20, bits := [9, 8, 7], hash := 3, mutex := true }
      [1, 2, 3] 5 (by decide) (by norm_num)).1⟩

/-- Into the zero value the storage decoder never loads anything: short data
gives the error, and for longer data the size computed from the length 0 is
`uint64(-8)`, whose buffer of `2 ^ 61` bytes is above the allocation limit. -/
theorem UnmarshalStorage_zeroValue_fails (data : List Nat) (hash : Nat) (r : Bloom) :
    UnmarshalStorage Bloom.zeroValue data hash ≠ some (r, none) := by
  intro h
  rcases Nat.lt_or_ge data.length 18 with hl | hl
  · rw [UnmarshalStorage_short _ data hash hl] at h
    simp at h
  · have hlen0 : Bloom.zeroValue.bits.length = 0 := rfl
    have hne : (0 : Nat) ≠ storageSize 0 / 8 + 1 := by omega
    have hbig : maxAlloc < storageSize 0 / 8 + 1 := by
      rw [storageSize_zero]
      decide
    rw [UnmarshalStorage_long _ data hash hl, hlen0, if_pos hne, make_of_gt _ hbig] at h
    simp at h

/-- C14. The storage format does not round-trip.  Take any datum `d` and the
filter `InitByParameters(8, 1)` after `Add(d)`: `d` tests true on it and
`MarshalStorage` returns its two bytes without the first and with a zero
behind.  Loading them with `UnmarshalStorage` and the filter's hash-round count
fails with the length error and leaves the receiver as it was: a fresh
`InitByParameters(8, 1)`, whose bits differ from the filter's and on which `d`
tests false; or the zero value, whose size differs and on which `d` does not
test true (`Test` panics on the nil lock). -/
theorem storage_round_trip_fails (H : Hasher) (d : List Nat) :
    ∃ f0 f out, InitByParameters 8 1 = some (some f0, none) ∧ Add H f0 d = some f ∧ Valid f ∧
      Test H f d = some true ∧ MarshalStorage f = some (f, out, none) ∧
      (∃ e, UnmarshalStorage f0 out f.hash = some (f0, some e)) ∧
      f0.bits ≠ f.bits ∧ Test H f0 d = some false ∧
      (∃ e, UnmarshalStorage Bloom.zeroValue out f.hash = some (Bloom.zeroValue, some e)) ∧
      Bloom.zeroValue.size ≠ f.size ∧ Test H Bloom.zeroValue d ≠ some true := by
  have hlen0 : (zeros (8 / 8 + 1)).length = 2 := zeros_length _
  obtain ⟨f, hadd⟩ := Add_total H
    { size := 8, hash := 1, bits := zeros (8 / 8 + 1), mutex := true } d (by decide)
    (by show 8 / 8 < (zeros (8 / 8 + 1)).length; rw [hlen0]; decide) rfl
  obtain ⟨h1, h2, h3, _, h5, h6⟩ := Add_post H _ f d hadd
  have hsize : f.size = 8 := h1
  have hhash : f.hash = 1 := h2
  have hflen : f.bits.length = 2 := by rw [← h5.1]; exact hlen0
  have hne : f.bits ≠ [] := by
    intro h
    rw [h] at hflen
    cases hflen
  have hbyte : H.getRound (H.generateMultiHash d) 0 % 8 / 8 = 0 :=
    Nat.div_eq_of_lt (Nat.mod_lt _ (by decide))
  obtain ⟨_, b, hb, hbit⟩ := h6 0 (by decide)
  have hb' : f.bits[0]? = some b := by
    have : f.bits[H.getRound (H.generateMultiHash d) 0 % 8 / 8]? = some b := hb
    rwa [hbyte] at this
  have hb0 : b ≠ 0 := by
    intro h
    rw [h] at hbit
    simp at hbit
  have hout := MarshalStorage_eq f hne h3 (by rw [hflen]; decide)
  have holen : (f.bits.drop 1 ++ [0]).length < 18 := by
    rw [List.length_append, List.length_drop, hflen]
    decide
  refine ⟨_, f, _, by decide, hadd, ?_, ?_, hout, ⟨_, UnmarshalStorage_short _ _ _ holen⟩,
    ?_, ?_, ⟨_, UnmarshalStorage_short _ _ _ holen⟩, ?_, ?_⟩
  · show f.bits.length = f.size / 8 + 1
    rw [hflen, hsize]
  · rw [Test_eq_true_iff]
    refine ⟨h3, fun k hk => ?_⟩
    rw [h1]
    exact h6 k (h2 ▸ hk)
  · intro heq
    have h0 : (zeros (8 / 8 + 1))[0]? = some 0 := zeros_getElem? _ _ (by decide)
    have heq' : zeros (8 / 8 + 1) = f.bits := heq
    rw [heq', hb'] at h0
    exact hb0 (Option.some.inj h0)
  · simp only [Test, if_true]
    exact Test_loop_zeros _ 8 (by decide) 0 0
  · show (0 : Nat) ≠ f.size
    rw [hsize]
    decide
  · simp [Test, Bloom.zeroValue]

/-- C14 with the hasher `sumHasher` and the datum `[1, 2]`. -/
theorem storage_round_trip_fails_witness :
    ∃ f0 f out, InitByParameters 8 1 = some (some f0, none) ∧
      Add sumHasher f0 [1, 2] = some f ∧ Valid f ∧
      Test sumHasher f [1, 2] = some true ∧ MarshalStorage f = some (f, out, none) ∧
      (∃ e, UnmarshalStorage f0 out f.hash = some (f0, some e)) ∧
      f0.bits ≠ f.bits ∧ Test sumHasher f0 [1, 2] = some false ∧
      (∃ e, UnmarshalStorage Bloom.zeroValue out f.hash = some (Bloom.zeroValue, some e)) ∧
      Bloom.zeroValue.size ≠ f.size ∧ Test sumHasher Bloom.zeroValue [1, 2] ≠ some true :=
  storage_round_trip_fails sumHasher [1, 2]

/-! ## Init -/

/-- Past its two guards `Init` returns the filter whose size is
`uint64(math.Ceil(m))` and whose hash-round count is `uint64(math.Ceil(k))`,
unless the allocation of the buffer panics. -/
theorem Init_eq (fl : Float64Ops) (elements : Int) (falsePositive : fl.F) (hel : 0 < elements)
    (hfp : (fl.le falsePositive (fl.ofInt 0) || fl.ge falsePositive (fl.ofInt 1)) = false) :
    Init fl elements falsePositive =
      (make (fl.toUint64 (fl.Ceil (Init.m fl elements falsePositive)) / 8 + 1)).map fun bits =>
        (some { size := fl.toUint64 (fl.Ceil (Init.m fl elements falsePositive)),
                hash := fl.toUint64 (fl.Ceil (Init.k fl elements falsePositive)),
                bits := bits, mutex := true }, none) := by
  have he : ¬ elements ≤ 0 := by omega
  unfold Init
  rw [if_neg he, hfp]
  rfl

/-- C15, as the code has it: for `elements > 0` and a `falsePositive` that
passes both comparisons, when the buffer is within the allocation limit, `Init`
returns a nil error and the filter with `size = uint64(ceil(m))`, where
`m = (-1 * elements * ln(falsePositive)) / (ln 2)^2` in `float64`, with
`hash = uint64(ceil(k))`, where `k = (m / elements) * ln 2` is computed from
that `m` before it is rounded up (not from the size), and with `size/8 + 1` zero
bytes; the result is a function of the two arguments. -/
theorem Init_parameters (fl : Float64Ops) (elements : Int) (falsePositive : fl.F)
    (hel : 0 < elements)
    (hfp : (fl.le falsePositive (fl.ofInt 0) || fl.ge falsePositive (fl.ofInt 1)) = false)
    (halloc : fl.toUint64 (fl.Ceil (Init.m fl elements falsePositive)) / 8 + 1 ≤ maxAlloc) :
    Init fl elements falsePositive = some
      (some { size := fl.toUint64 (fl.Ceil (Init.m fl elements falsePositive)),
              hash := fl.toUint64 (fl.Ceil (Init.k fl elements falsePositive)),
              bits := zeros (fl.toUint64 (fl.Ceil (Init.m fl elements falsePositive)) / 8 + 1),
              mutex := true }, none) := by
  rw [Init_eq fl elements falsePositive hel hfp, make_of_le _ halloc, Option.map_some']

/-- C15 at `elements = 1000` and `falsePositive = 0.01` in exact arithmetic
with the logarithms to sixteen digits: the size is 9586 and the hash-round
count is 7. -/
theorem Init_parameters_witness :
    Init exact64 1000 (some (1 / 100)) = some
      (some { size := exact64.toUint64 (exact64.Ceil (Init.m exact64 1000 (some (1 / 100)))),
              hash := exact64.toUint64 (exact64.Ceil (Init.k exact64 1000 (some (1 / 100)))),
              bits := zeros
                (exact64.toUint64 (exact64.Ceil (Init.m exact64 1000 (some (1 / 100)))) / 8 + 1),
              mutex := true }, none) ∧
      exact64.toUint64 (exact64.Ceil (Init.m exact64 1000 (some (1 / 100)))) = 9586 ∧
      exact64.toUint64 (exact64.Ceil (Init.k exact64 1000 (some (1 / 100)))) = 7 :=
  ⟨Init_parameters exact64 1000 (some (1 / 100)) (by decide) (by decide!) (by decide!),
    by decide!, by decide!⟩

/-- C15 fails on the formula for `k`: for `elements = 1` and
`falsePositive = 0.3`, in exact arithmetic with the logarithms to sixteen
digits, `m` is about 2.506, the size is 3, and `Init` returns the hash-round
count `ceil(2.506 * ln 2) = 2`, where the formula with the size for `m` gives
`ceil(3 * ln 2) = 3`. -/
theorem Init_rounds_from_unrounded_m :
    Init exact64 1 (some (3 / 10))
        = some (some { size := 3, hash := 2, bits := [0], mutex := true }, none) ∧
      specHashRounds exact64 3 1 = 3 := by
  constructor <;> decide!

/-- C16, as far as the code goes: `Init` returns `errElements` exactly when
`elements <= 0`; for `elements > 0` it returns `errFalsePositive` exactly when
one of the comparisons `falsePositive <= 0`, `falsePositive >= 1` holds; with an
error no filter is returned; and in every other case a filter and a nil error
are returned when the buffer is within the allocation limit.  The comparisons
are those of `float64`, which are both false for a NaN. -/
theorem Init_validation (fl : Float64Ops) (elements : Int) (falsePositive : fl.F) :
    ((∃ f, Init fl elements falsePositive = some (f, some Err.errElements)) ↔ elements ≤ 0) ∧
    (0 < elements →
      ((∃ f, Init fl elements falsePositive = some (f, some Err.errFalsePositive)) ↔
        (fl.le falsePositive (fl.ofInt 0) || fl.ge falsePositive (fl.ofInt 1)) = true)) ∧
    (∀ f e, Init fl elements falsePositive = some (f, some e) → f = none) ∧
    (0 < elements →
      (fl.le falsePositive (fl.ofInt 0) || fl.ge falsePositive (fl.ofInt 1)) = false →
      fl.toUint64 (fl.Ceil (Init.m fl elements falsePositive)) / 8 + 1 ≤ maxAlloc →
      ∃ f, Init fl elements falsePositive = some (some f, none)) := by
  by_cases he : elements ≤ 0
  · have hI : Init fl elements falsePositive = some (none, some Err.errElements) := by
      unfold Init
      rw [if_pos he]
    rw [hI]
    refine ⟨⟨fun _ => he, fun _ => ⟨none, rfl⟩⟩, fun h => absurd h (by omega), ?_,
      fun h => absurd h (by omega)⟩
    intro f e h
    simp only [Option.some.injEq, Prod.mk.injEq] at h
    exact h.1.symm
  · have hpos : 0 < elements := by omega
    cases hc : (fl.le falsePositive (fl.ofInt 0) || fl.ge falsePositive (fl.ofInt 1)) with
    | true =>
      have hI : Init fl elements falsePositive = some (none, some Err.errFalsePositive) := by
        unfold Init
        rw [if_neg he, hc, if_pos rfl]
      rw [hI]
      refine ⟨⟨?_, fun h => absurd h he⟩, fun _ => ⟨fun _ => rfl, fun _ => ⟨none, rfl⟩⟩, ?_,
        fun _ h => absurd h (by simp)⟩
      · rintro ⟨f, h⟩
        simp at h
      · intro f e h
        simp only [Option.some.injEq, Prod.mk.injEq] at h
        exact h.1.symm
    | false =>
      have hI := Init_eq fl elements falsePositive hpos hc
      have hno : ∀ f e, Init fl elements falsePositive ≠ some (f, some e) := by
        intro f e h
        rw [hI, Option.map_eq_some'] at h
        obtain ⟨_, _, hf⟩ := h
        simp at hf
      refine ⟨⟨fun ⟨f, h⟩ => absurd h (hno f _), fun h => absurd h he⟩,
        fun _ => ⟨fun ⟨f, h⟩ => absurd h (hno f _), fun h => absurd h (by simp)⟩,
        fun f e h => absurd h (hno f e), ?_⟩
      intro _ _ halloc
      rw [hI, make_of_le _ halloc]
      exact ⟨_, rfl⟩

/-- C16 at `elements = 0` with the operations of `Float`, where `errElements`
is returned, and at `elements = 1` and a NaN in the stand-in `exact64`, where
`errFalsePositive` is not returned. -/
theorem Init_validation_witness :
    (∃ f, Init binary64 0 (binary64.ofInt 1) = some (f, some Err.errElements)) ∧
      ¬ ∃ f, Init exact64 1 none = some (f, some Err.errFalsePositive) :=
  ⟨(Init_validation binary64 0 (binary64.ofInt 1)).1.2 (by decide),
   fun h => absurd (((Init_validation exact64 1 none).2.1 (by decide)).1 h) (by decide)⟩

/-- For a NaN `Init` passes both guards and, with `uint64(NaN) = 1 << 63` as on
amd64, panics in `make`: no error is returned. -/
theorem Init_NaN_panics : Init exact64 1 none = none := by
  decide!

/-! ## Relationship fingerprint -/

theorem Cmp_eq_one_iff (a b : Int) : Cmp a b = 1 ↔ b < a := by
  unfold Cmp
  split
  · constructor
    · intro h; cases h
    · intro h; omega
  · split
    · constructor
      · intro h; cases h
      · intro h; omega
    · constructor
      · intro _; omega
      · intro _; rfl

/-- C17. The relationship fingerprint does not depend on the order of the two
public keys, and when a hash is to be had it is the digest of
`bytes(max(A, B)) ++ bytes(min(A, B)) ++ bytes(sender) ++ bytes(receiver)`. -/
theorem MakeRelationshipFingerprint_comm (c : Collaborators) (pubkeyA pubkeyB : Int)
    (sender receiver : List Nat) :
    MakeRelationshipFingerprint c pubkeyA pubkeyB sender receiver =
        MakeRelationshipFingerprint c pubkeyB pubkeyA sender receiver ∧
      ∀ Sum, c.NewCMixHash = some Sum →
        MakeRelationshipFingerprint c pubkeyA pubkeyB sender receiver =
          some (Sum (c.Bytes (max pubkeyA pubkeyB) ++ c.Bytes (min pubkeyA pubkeyB) ++
            sender ++ receiver)) := by
  have key : ∀ (a b : Int) (Sum : List Nat → List Nat), c.NewCMixHash = some Sum →
      MakeRelationshipFingerprint c a b sender receiver =
        some (Sum (c.Bytes (max a b) ++ c.Bytes (min a b) ++ sender ++ receiver)) := by
    intro a b Sum hS
    unfold MakeRelationshipFingerprint
    simp only [hS, Write, List.nil_append]
    by_cases h : b < a
    · rw [if_pos ((Cmp_eq_one_iff a b).2 h), max_eq_left (le_of_lt h), min_eq_right (le_of_lt h)]
    · have hle : a ≤ b := not_lt.1 h
      rw [if_neg (fun hc => h ((Cmp_eq_one_iff a b).1 hc)), max_eq_right hle, min_eq_left hle]
      simp
  constructor
  · cases hS : c.NewCMixHash with
    | none => simp [MakeRelationshipFingerprint, hS]
    | some Sum => rw [key _ _ Sum hS, key _ _ Sum hS, max_comm, min_comm]
  · exact key pubkeyA pubkeyB

/-- C17 at the keys 5 and 700 with the digest that returns the byte stream. -/
theorem MakeRelationshipFingerprint_comm_witness :
    MakeRelationshipFingerprint plainCollaborators 5 700 [1] [2]
      = MakeRelationshipFingerprint plainCollaborators 700 5 [1] [2] :=
  (MakeRelationshipFingerprint_comm plainCollaborators 5 700 [1] [2]).1

/-! ## Shape of the buffer -/

/-- C18, as the code has it: every filter returned by `InitByParameters` or
`Init` has a buffer of exactly `size/8 + 1` zero bytes, the division being that
of integers; and bit `j` of the filter is stored in byte `bits[j/8]` under the
mask `1 << (j % 8)`: a round of `Add` whose index is `j` ORs that mask into that
byte, and a round of `Test` whose index is `j` reads it there. -/
theorem bits_length_and_layout :
    (∀ size k f, InitByParameters size k = some (some f, none) →
      f.bits = zeros (size / 8 + 1) ∧ f.bits.length = size / 8 + 1 ∧ ∀ b ∈ f.bits, b = 0) ∧
    (∀ (fl : Float64Ops) (elements : Int) (falsePositive : fl.F) f e,
      Init fl elements falsePositive = some (some f, e) →
      f.bits = zeros (f.size / 8 + 1) ∧ f.bits.length = f.size / 8 + 1 ∧ ∀ b ∈ f.bits, b = 0) ∧
    (∀ (size j b : Nat) (bits : List Nat), j < size → bits[j / 8]? = some b →
      Add.loop (fun _ => j) size 1 0 bits = some (bits.set (j / 8) (b ||| 1 <<< (j % 8))) ∧
      Test.loop (fun _ => j) size bits 1 0 = some (decide (b &&& 1 <<< (j % 8) ≠ 0))) := by
  refine ⟨?_, ?_, ?_⟩
  · intro size k f h
    obtain ⟨_, _, _, _, hf⟩ := InitByParameters_post size k f none h
    subst hf
    exact ⟨rfl, zeros_length _, fun b hb => zeros_mem _ b hb⟩
  · intro fl elements falsePositive f e h
    obtain ⟨hb, _⟩ := Init_post fl elements falsePositive f e h
    rw [hb]
    exact ⟨rfl, zeros_length _, fun b hb => zeros_mem _ b hb⟩
  · intro size j b bits hj hb
    have hs : size ≠ 0 := by omega
    have hm : j % size = j := Nat.mod_eq_of_lt hj
    constructor
    · rw [Add.loop]
      simp only [hs, if_false, hm, hb, Add.loop]
    · rw [Test.loop]
      simp only [hs, if_false, hm, hb, Test.loop]
      by_cases hz : b &&& 1 <<< (j % 8) = 0
      · simp [hz]
      · simp [hz]

/-- C18 at `InitByParameters(20, 3)`: three zero bytes. -/
theorem bits_length_and_layout_witness :
    ({ size := 20, bits := [0, 0, 0], hash := 3, mutex := true } : Bloom).bits
        = zeros (20 / 8 + 1) ∧
      ({ size := 20, bits := [0, 0, 0], hash := 3, mutex := true } : Bloom).bits.length
        = 20 / 8 + 1 ∧
      ∀ b ∈ ({ size := 20, bits := [0, 0, 0], hash := 3, mutex := true } : Bloom).bits, b = 0 :=
  bits_length_and_layout.1 20 3 { size := 20, bits := [0, 0, 0], hash := 3, mutex := true }
    (by decide)

/-- C18 fails on the length when the size is not a multiple of 8: the filter
`InitByParameters(20, 3)` has 3 bytes, `20/8 + 1`, and not `⌈20/8⌉ + 1 = 4`. -/
theorem InitByParameters_length_not_ceil :
    ∃ f, InitByParameters 20 3 = some (some f, none) ∧ f.bits.length = 3 ∧
      specBitsLength 20 = 4 :=
  ⟨{ size := 20, bits := [0, 0, 0], hash := 3, mutex := true }, by decide, rfl, rfl⟩

/-! ## The structural invariant -/

theorem UnmarshalBinary_ok_valid (r f : Bloom) (data : List Nat)
    (h : UnmarshalBinary r data = some (f, none)) : Valid f := by
  obtain ⟨_, _, size, hash, bits, _, _, hb, hf⟩ := UnmarshalBinary_ok r f data h
  subst hf
  show (copy _ _).length = size / 8 + 1
  rw [copy_length, decode_buffer_length r size bits hb]

/-- C19. The predicate `len(bits) = size/8 + 1` holds of every filter returned
by `InitByParameters` and is kept by `Add`, `Reset`, `Merge` (nil error or not),
`UnmarshalBinary` (nil error or not) and `UnmarshalStorage` (nil error or not;
the size being a `uint64`); on a filter that has it `UnmarshalStorage` finds
the buffer length equal to the length it expects for the new size, so that it
does not allocate a new buffer. -/
theorem Valid_invariant (H : Hasher) :
    (∀ size k f, InitByParameters size k = some (some f, none) → Valid f) ∧
    (∀ r r' d, Valid r → Add H r d = some r' → Valid r') ∧
    (∀ r r', Valid r → Reset r = some r' → Valid r') ∧
    (∀ r m r' m' e, Valid r → Merge r m = some (r', m', e) → Valid r') ∧
    (∀ r data r' e, Valid r → UnmarshalBinary r data = some (r', e) → Valid r') ∧
    (∀ r data hash r' e, Valid r → r.size < 2 ^ 64 →
      UnmarshalStorage r data hash = some (r', e) → Valid r') ∧
    (∀ r, Valid r → r.size < 2 ^ 64 →
      r.bits.length = storageSize r.bits.length / 8 + 1) := by
  have hrange : ∀ r : Bloom, Valid r → r.size < 2 ^ 64 →
      1 ≤ r.bits.length ∧ r.bits.length ≤ 2 ^ 61 := by
    intro r hv hs
    have hv' : r.bits.length = r.size / 8 + 1 := hv
    have h64 : (2 : Nat) ^ 64 = 18446744073709551616 := by norm_num
    have h61 : (2 : Nat) ^ 61 = 2305843009213693952 := by norm_num
    omega
  refine ⟨?_, ?_, ?_, ?_, ?_, ?_, ?_⟩
  · intro size k f h
    obtain ⟨_, _, _, _, hf⟩ := InitByParameters_post size k f none h
    subst hf
    exact zeros_length _
  · intro r r' d hv h
    obtain ⟨h1, _, _, _, h5, _⟩ := Add_post H r r' d h
    show r'.bits.length = r'.size / 8 + 1
    rw [← h5.1, h1]
    exact hv
  · intro r r' _ h
    obtain ⟨h1, _, _⟩ := Reset_post r r' h
    subst h1
    exact zeros_length _
  · intro r m r' m' e hv h
    cases e with
    | none =>
      obtain ⟨h1, _, _, _, _, _, h7, _⟩ := Merge_post r m r' m' h
      show r'.bits.length = r'.size / 8 + 1
      rw [← h7.1, h1]
      exact hv
    | some e =>
      rw [(Merge_error r m r' m' e h).2.1]
      exact hv
  · intro r data r' e hv h
    cases e with
    | none => exact UnmarshalBinary_ok_valid r r' data h
    | some e =>
      rw [UnmarshalBinary_error r r' data e h]
      exact hv
  · intro r data hash r' e hv hs h
    obtain ⟨h1, h2⟩ := hrange r hv hs
    cases e with
    | some e =>
      rw [(UnmarshalStorage_error r r' data hash e h).2]
      exact hv
    | none =>
      rcases Nat.lt_or_ge data.length 18 with hl | hl
      · rw [UnmarshalStorage_short r data hash hl] at h
        simp at h
      · rw [UnmarshalStorage_eq r data hash hl h1 h2] at h
        simp only [Option.some.injEq, Prod.mk.injEq, and_true] at h
        subst h
        show (r.bits.take 1 ++ copy (r.bits.drop 1) data).length
          = (r.bits.length - 1) * 8 / 8 + 1
        rw [List.length_append, copy_length, List.length_take, List.length_drop,
          Nat.mul_div_cancel _ (by decide : 0 < 8)]
        omega
  · intro r hv hs
    obtain ⟨h1, h2⟩ := hrange r hv hs
    rw [storageSize_of_pos _ h1 h2, Nat.mul_div_cancel _ (by decide : 0 < 8)]
    omega

/-- C19 at `InitByParameters(20, 3)`. -/
theorem Valid_invariant_witness :
    Valid { size := 20, bits := [0, 0, 0], hash := 3, mutex := true } :=
  (Valid_invariant sumHasher).1 20 3 _ (by decide)


theorem Merge_ok_lock (r m r' m' : Bloom) (h : Merge r m = some (r', m', none)) :
    r.mutex = true := by
  unfold Merge at h
  by_cases hp : r.size ≠ m.size ∨ r.hash ≠ m.hash
  · simp [hp] at h
  · rw [if_neg hp] at h
    cases hr : r.mutex with
    | false => simp [hr] at h
    | true => rfl

/-- Every buffer of a filter the package produces has a length within the
allocation limit, and a produced filter whose lock is allocated has
`len(bits) = size/8 + 1`. -/
theorem Produced_shape (H : Hasher) (f : Bloom) (h : Produced H f) :
    f.bits.length ≤ maxAlloc ∧ (f.mutex = true → Valid f) := by
  induction h with
  | zeroValue => exact ⟨Nat.zero_le _, fun h => by cases h⟩
  | init fl elements falsePositive f e hf =>
    obtain ⟨h1, _, h3, _⟩ := Init_post fl elements falsePositive f e hf
    have hl : f.bits.length = f.size / 8 + 1 := by rw [h1, zeros_length]
    exact ⟨by rw [hl]; exact h3, fun _ => hl⟩
  | initByParameters size k f e hf =>
    obtain ⟨_, _, h3, _, h5⟩ := InitByParameters_post size k f e hf
    subst h5
    exact ⟨by show (zeros _).length ≤ _; rw [zeros_length]; exact h3, fun _ => zeros_length _⟩
  | add f f' data _ hf ih =>
    obtain ⟨h1, _, _, h4, h5, _⟩ := Add_post H f f' data hf
    refine ⟨by rw [← h5.1]; exact ih.1, fun _ => ?_⟩
    show f'.bits.length = f'.size / 8 + 1
    rw [← h5.1, h1]
    exact ih.2 h4
  | reset f f' _ hf _ =>
    obtain ⟨h1, _, h3⟩ := Reset_post f f' hf
    subst h1
    exact ⟨by show (zeros _).length ≤ _; rw [zeros_length]; exact h3, fun _ => zeros_length _⟩
  | merge f f' m m' e _ hf ih =>
    cases e with
    | none =>
      obtain ⟨h1, _, _, _, _, _, h7, _⟩ := Merge_post f m f' m' hf
      refine ⟨by rw [← h7.1]; exact ih.1, fun _ => ?_⟩
      show f'.bits.length = f'.size / 8 + 1
      rw [← h7.1, h1]
      exact ih.2 (Merge_ok_lock f m f' m' hf)
    | some e =>
      rw [(Merge_error f m f' m' e hf).2.1]
      exact ih
  | unmarshalBinary f f' data e _ hf ih =>
    cases e with
    | none =>
      refine ⟨?_, fun _ => UnmarshalBinary_ok_valid f f' data hf⟩
      obtain ⟨_, _, size, hash, bits, _, _, hb, hf'⟩ := UnmarshalBinary_ok f f' data hf
      subst hf'
      show (copy _ _).length ≤ _
      rw [copy_length]
      split at hb
      · obtain ⟨hz, hle⟩ := make_eq_some _ _ hb
        rw [hz, zeros_length]
        exact hle
      · cases hb
        exact ih.1
    | some e =>
      rw [UnmarshalBinary_error f f' data e hf]
      exact ih
  | unmarshalStorage f f' data hash e _ hf ih =>
    cases e with
    | some e =>
      rw [(UnmarshalStorage_error f f' data hash e hf).2]
      exact ih
    | none =>
      rcases Nat.lt_or_ge data.length 18 with hl | hl
      · rw [UnmarshalStorage_short f data hash hl] at hf
        simp at hf
      · rcases Nat.eq_zero_or_pos f.bits.length with h0 | hpos
        · exfalso
          have hne : (0 : Nat) ≠ storageSize 0 / 8 + 1 := by omega
          have hbig : maxAlloc < storageSize 0 / 8 + 1 := by
            rw [storageSize_zero]
            decide
          rw [UnmarshalStorage_long f data hash hl, h0, if_pos hne, make_of_gt _ hbig] at hf
          simp at hf
        · have h61 : f.bits.length ≤ 2 ^ 61 := Nat.le_trans ih.1 (by decide)
          rw [UnmarshalStorage_eq f data hash hl hpos h61] at hf
          simp only [Option.some.injEq, Prod.mk.injEq, and_true] at hf
          subst hf
          have hlen : (f.bits.take 1 ++ copy (f.bits.drop 1) data).length = f.bits.length := by
            rw [List.length_append, copy_length, List.length_take, List.length_drop]
            omega
          refine ⟨by show (f.bits.take 1 ++ copy (f.bits.drop 1) data).length ≤ _
                     rw [hlen]; exact ih.1, fun _ => ?_⟩
          show (f.bits.take 1 ++ copy (f.bits.drop 1) data).length
            = (f.bits.length - 1) * 8 / 8 + 1
          rw [hlen, Nat.mul_div_cancel _ (by decide : 0 < 8)]
          omega

/-! ## No index out of range, no division by zero -/

theorem Test_loop_total (getRound : Nat → Nat) (size : Nat) (hs : size ≠ 0) (bits : List Nat)
    (hlen : size / 8 < bits.length) (n i : Nat) :
    ∃ b, Test.loop getRound size bits n i = some b := by
  induction n generalizing i with
  | zero => exact ⟨true, rfl⟩
  | succ n ih =>
    have hidx : getRound i % size / 8 < bits.length :=
      Nat.lt_of_le_of_lt (Nat.div_le_div_right (Nat.le_of_lt (Nat.mod_lt _ (Nat.pos_of_ne_zero hs))))
        hlen
    have hb : bits[getRound i % size / 8]? = some bits[getRound i % size / 8] :=
      List.getElem?_eq_getElem hidx
    rw [Test.loop]
    simp only [hs, if_false, hb]
    split
    · exact ⟨false, rfl⟩
    · exact ih (i + 1)

theorem Add_eq_none_iff (H : Hasher) (f : Bloom) (d : List Nat) (hvalid : Valid f)
    (hlock : f.mutex = true) : Add H f d = none ↔ f.size = 0 ∧ 0 < f.hash := by
  have hlen : f.size / 8 < f.bits.length := by rw [hvalid]; exact Nat.lt_succ_self _
  constructor
  · intro h
    by_cases hs : f.size = 0
    · refine ⟨hs, Nat.pos_of_ne_zero fun hh => ?_⟩
      have : Add H f d = some f := by
        unfold Add
        simp only [hlock, if_true, hh, Add.loop]
        rw [Option.map_some', ← hlock, ← hh]
      rw [this] at h
      cases h
    · obtain ⟨f', hf'⟩ := Add_total H f d hs hlen hlock
      rw [hf'] at h
      cases h
  · rintro ⟨hs, hh⟩
    obtain ⟨n, hn⟩ := Nat.exists_eq_succ_of_ne_zero (Nat.pos_iff_ne_zero.1 hh)
    unfold Add
    simp only [hlock, if_true, hn, hs]
    rw [Add.loop]
    simp

theorem Test_eq_none_iff (H : Hasher) (f : Bloom) (d : List Nat) (hvalid : Valid f)
    (hlock : f.mutex = true) : Test H f d = none ↔ f.size = 0 ∧ 0 < f.hash := by
  have hlen : f.size / 8 < f.bits.length := by rw [hvalid]; exact Nat.lt_succ_self _
  constructor
  · intro h
    by_cases hs : f.size = 0
    · refine ⟨hs, Nat.pos_of_ne_zero fun hh => ?_⟩
      have : Test H f d = some true := by
        unfold Test
        simp only [hlock, if_true, hh, Test.loop]
      rw [this] at h
      cases h
    · obtain ⟨b, hb⟩ := Test_loop_total (H.getRound (H.generateMultiHash d)) f.size hs f.bits hlen
        f.hash 0
      have : Test H f d = some b := by
        unfold Test
        simp only [hlock, if_true]
        exact hb
      rw [this] at h
      cases h
  · rintro ⟨hs, hh⟩
    obtain ⟨n, hn⟩ := Nat.exists_eq_succ_of_ne_zero (Nat.pos_iff_ne_zero.1 hh)
    unfold Test
    simp only [hlock, if_true, hn, hs]
    rw [Test.loop]
    simp

/-- C20. On a filter with `len(bits) = size/8 + 1` and an allocated lock: with
`size > 0` every index `(g % size) / 8` is below `len(bits)`; `Add` and `Test`
panic exactly when `size = 0` and `hash > 0`, where the modulo is by zero, and
return in every other case; and for a source of the same shape and size every
index of the loop of `Merge` is below the length of the target's buffer and
`Merge` returns. -/
theorem no_out_of_range (H : Hasher) (f : Bloom) (d : List Nat) (hvalid : Valid f)
    (hlock : f.mutex = true) :
    (0 < f.size → ∀ g : Nat, g % f.size / 8 < f.bits.length) ∧
    (Add H f d = none ↔ f.size = 0 ∧ 0 < f.hash) ∧
    (Test H f d = none ↔ f.size = 0 ∧ 0 < f.hash) ∧
    (∀ m : Bloom, Valid m → m.size = f.size → m.mutex = true →
      (∀ i, i < m.bits.length → i < f.bits.length) ∧ ∃ res, Merge f m = some res) := by
  refine ⟨?_, Add_eq_none_iff H f d hvalid hlock, Test_eq_none_iff H f d hvalid hlock, ?_⟩
  · intro hs g
    rw [hvalid]
    exact Nat.lt_succ_of_le (Nat.div_le_div_right (Nat.le_of_lt (Nat.mod_lt _ hs)))
  · intro m hm hsize hmlock
    have hlen : m.bits.length = f.bits.length := by rw [hm, hvalid, hsize]
    refine ⟨fun i hi => hlen ▸ hi, ?_⟩
    by_cases hp : f.size ≠ m.size ∨ f.hash ≠ m.hash
    · exact ⟨_, by unfold Merge; rw [if_pos hp]⟩
    · obtain ⟨bits', hloop⟩ :=
        Merge_loop_total m.bits m.bits.length 0 f.bits (Nat.zero_add _) (Nat.le_of_eq hlen)
      refine ⟨({ f with bits := bits' }, m, none), ?_⟩
      unfold Merge
      rw [if_neg hp]
      simp [hlock, hmlock, hloop]

/-- C20 at `InitByParameters(20, 3)` and the datum `[1, 2]`. -/
theorem no_out_of_range_witness :
    (0 < 20 → ∀ g : Nat, g % 20 / 8 < 3) ∧
    (Add sumHasher { size := 20, bits := [0, 0, 0], hash := 3, mutex := true } [1, 2] = none ↔
      (20 : Nat) = 0 ∧ 0 < 3) ∧
    (Test sumHasher { size := 20, bits := [0, 0, 0], hash := 3, mutex := true } [1, 2] = none ↔
      (20 : Nat) = 0 ∧ 0 < 3) :=
  have h := no_out_of_range sumHasher { size := 20, bits := [0, 0, 0], hash := 3, mutex := true }
    [1, 2] (by decide) rfl
  ⟨h.1, h.2.1, h.2.2.1⟩

end Ring

